import Mathlib

/-!
Verification of the `withConcurrency` bounded-concurrency task runner.

This file gives a shallow embedding of the bounded-concurrency task runner
implemented twice in the repository: once in `src/functions/concurrency.ts`
(accepting thunks or already-started promises) and once in
`src/functions/promise.ts` (thunks only), together with the
`sleep(time, signal)` delay primitive from `src/functions/utils-core.ts`.

The runner is single-threaded cooperative JavaScript: code between two
`await` points runs atomically, and the event loop interleaves the
continuations of the logical workers in some order determined by timing.
We model one run of the runner as a small-step machine:

* the mutable run state (`taskIndex` cursor, `succeeded`/`failed` counts,
  `stopped` flag, `resultEntries`, `errors`, `firstError`) is a record `St`;
* each logical worker is a program counter `WStatus` marking which `await`
  it is suspended at (`atLoop` = about to re-check the worker `while` loop,
  `running i k` = awaiting attempt `k` of entry `i`'s thunk, `delaying i k`
  = suspended in the inter-retry `sleep` before attempt `k`);
* timing nondeterminism is abstracted by an explicit schedule: a list of
  events `Ev` saying which suspended continuation resumes next (`work w`),
  when the external `AbortSignal` fires (`abortFire`), and when the
  `sleep(timeout, signal)` promise used for the global timeout race
  resolves (`timerFire`; in the source this happens either because the
  timeout elapsed or because the abort signal resolved that sleep early).

Atomic blocks are translated statement-for-statement from the source.
A task thunk is modelled by its observable behaviour in the run at hand:
a function from the invocation count (0-based attempt number) to either a
resolved value or a thrown value (`TaskOutcome`).  Thrown values are either
`Error` objects or arbitrary values that the source normalizes with
`new Error(String(err))`; both are represented by the resulting message.

Ghost instrumentation (fields `invLog` and `errLog` of `St`) records the
observable trace of thunk invocations (entry index, attempt number, and
whether the signal had already fired at call time) and which entry produced
each captured error; it is write-only and never influences control flow.

Wall-clock `duration` is the one result field not modelled (real time).
For list-shaped input the source keys entries by `idx.toString()` and the
final sort compares `Number(key)`; since stringify/parse compose to the
identity on indices, list keys are modelled directly as naturals.
-/

/-- A value thrown by a task: either a real `Error` (carrying its message)
or a non-`Error` value, represented by its `String(err)` rendering. -/
inductive Thrown where
  | errObj (msg : String)
  | nonErr (repr : String)
  deriving DecidableEq, Repr

/-- The message of the normalized error
`err instanceof Error ? err : new Error(String(err))`. -/
def normalizeErr : Thrown → String
  | .errObj m => m
  | .nonErr s => s

/-- Observable outcome of awaiting one invocation of a task. -/
inductive TaskOutcome (V : Type) where
  | ok (v : V)
  | err (e : Thrown)
  deriving DecidableEq, Repr

/-- Whether the outcome is a rejection. -/
def TaskOutcome.isErr {V : Type} : TaskOutcome V → Prop
  | .ok _ => False
  | .err _ => True

instance {V : Type} (o : TaskOutcome V) : Decidable o.isErr := by
  cases o <;> simp [TaskOutcome.isErr] <;> infer_instance

/-- Program counter of one logical worker, naming the `await` at which its
continuation is suspended. -/
inductive WStatus where
  | atLoop
  | running (i k : Nat)
  | delaying (i k : Nat)
  | done
  deriving DecidableEq, Repr

/-- The entry index a worker currently holds, if any. -/
def WStatus.activeIdx : WStatus → Option Nat
  | .running i _ => some i
  | .delaying i _ => some i
  | _ => none

/-- Whether the worker loop has returned. -/
def WStatus.isDone : WStatus → Bool
  | .done => true
  | _ => false

/-- Whether the worker currently holds an entry (is inside `runTask`). -/
def WStatus.isActive : WStatus → Bool
  | .running _ _ => true
  | .delaying _ _ => true
  | _ => false

/-- The options record of `withConcurrency` (defaults from the source:
`concurrency = Infinity`, `timeout = Infinity`, no signal, `retry = 0`,
`retryDelay = 0`, `throwOnFirstError = false`, `ignoreErrors = false`).
`none` encodes `Infinity` for the two numeric limits. -/
structure Options where
  concurrency : Option Nat := none
  timeout : Option Nat := none
  hasSignal : Bool := false
  retry : Nat := 0
  retryDelay : Nat := 0
  throwOnFirstError : Bool := false
  ignoreErrors : Bool := false
  deriving Repr

/-- One run's static context for the `promise.ts` runner: the flattened
`(key, thunk)` entries (`taskMap` in iteration order) plus the options.
A thunk is modelled by its per-invocation behaviour. -/
structure Ctx (κ V : Type) where
  entries : List (κ × (Nat → TaskOutcome V))
  opts : Options

/-- `taskKeys.length`. -/
def Ctx.n {κ V : Type} (c : Ctx κ V) : Nat := c.entries.length

/-- `Math.min(concurrency, taskKeys.length)`, with `Infinity` giving
`taskKeys.length`. -/
def Ctx.workerCount {κ V : Type} (c : Ctx κ V) : Nat :=
  match c.opts.concurrency with
  | none => c.n
  | some lim => min lim c.n

/-- Mutable state of one run, together with ghost instrumentation.
`invLog` records each thunk invocation as
(entry index, attempt number, signal-already-fired-at-call).
`errLog` records the entry index of each captured error, in push order. -/
structure St (κ V : Type) where
  cursor : Nat
  succeeded : Nat
  failed : Nat
  stopped : Bool
  timedOut : Bool
  aborted : Bool
  resultEntries : List (κ × V)
  errors : List String
  firstError : Option String
  workers : List WStatus
  invLog : List (Nat × Nat × Bool)
  errLog : List Nat
  deriving DecidableEq, Repr

/-- Initial run state: fresh counters and `Math.min(concurrency, n)`
workers, each about to execute its loop body for the first time. -/
def initSt {κ V : Type} (c : Ctx κ V) : St κ V :=
  { cursor := 0, succeeded := 0, failed := 0, stopped := false,
    timedOut := false, aborted := false, resultEntries := [], errors := [],
    firstError := none, workers := List.replicate c.workerCount .atLoop,
    invLog := [], errLog := [] }

/-- Scheduler events: resume worker `w`'s suspended continuation, fire the
external abort signal, or resolve the `sleep(timeout, signal)` promise of
the timeout race (by the timeout elapsing, or early via the abort signal —
`sleep` resolves as soon as its signal fires). -/
inductive Ev where
  | work (w : Nat)
  | abortFire
  | timerFire
  deriving DecidableEq, Repr

/-- `Promise.all(workers)` has resolved: every worker loop returned. -/
def finishedSt {κ V : Type} (s : St κ V) : Bool :=
  s.workers.all WStatus.isDone

/-- Atomic block of the worker loop body (`promise.ts` lines 131-142 /
`concurrency.ts` lines 132-143), from the `while (!stopped)` check through
claiming `i = taskIndex++`, the bounds and `signal?.aborted` checks, and —
when a task is claimed — entering `runTask` and synchronously invoking the
thunk's first attempt (the inner loop guard `0 <= retry && !stopped` holds
here: `retry` is a natural and `stopped` was just checked in the same
atomic block). -/
def loopStep {κ V : Type} (c : Ctx κ V) (s : St κ V) (w : Nat) : St κ V :=
  if s.stopped then { s with workers := s.workers.set w .done }
  else if s.cursor ≥ c.n then
    { s with cursor := s.cursor + 1, workers := s.workers.set w .done }
  else if s.aborted then
    { s with cursor := s.cursor + 1, stopped := true,
             workers := s.workers.set w .done }
  else
    { s with cursor := s.cursor + 1,
             workers := s.workers.set w (.running s.cursor 0),
             invLog := s.invLog ++ [(s.cursor, 0, s.aborted)] }

/-- Atomic block run when attempt `k` of entry `i` settles (`runTask`,
`promise.ts` lines 104-128): on resolution push the `(key, value)` pair and
bump `succeeded`; on rejection at the final attempt push the normalized
error, bump `failed` and possibly capture `firstError` and set `stopped`;
otherwise bump `attempt` and either start the retry delay or — when
`retryDelay = 0` — re-check the loop guard and synchronously invoke the
next attempt. -/
def resolveStep {κ V : Type} (c : Ctx κ V) (s : St κ V) (w i k : Nat) : St κ V :=
  match c.entries[i]? with
  | none => s
  | some (key, beh) =>
    match beh k with
    | .ok v =>
      { s with resultEntries := s.resultEntries ++ [(key, v)],
               succeeded := s.succeeded + 1, workers := s.workers.set w .atLoop }
    | .err e =>
      if k = c.opts.retry then
        if ¬ c.opts.ignoreErrors ∧ c.opts.throwOnFirstError ∧ s.firstError = none
        then { s with errors := s.errors ++ [normalizeErr e],
                      failed := s.failed + 1, errLog := s.errLog ++ [i],
                      workers := s.workers.set w .atLoop,
                      firstError := some (normalizeErr e), stopped := true }
        else { s with errors := s.errors ++ [normalizeErr e],
                      failed := s.failed + 1, errLog := s.errLog ++ [i],
                      workers := s.workers.set w .atLoop }
      else if 0 < c.opts.retryDelay then
        { s with workers := s.workers.set w (.delaying i (k + 1)) }
      else if s.stopped then { s with workers := s.workers.set w .atLoop }
      else
        { s with workers := s.workers.set w (.running i (k + 1)),
                 invLog := s.invLog ++ [(i, k + 1, s.aborted)] }

/-- Atomic block run when the inter-retry `sleep(retryDelay, signal)`
resolves (by elapsing, or early because the signal fired): re-check the
guard `attempt <= retry && !stopped`; if it still holds, synchronously
invoke the next attempt, otherwise `runTask` returns. -/
def delayResume {κ V : Type} (c : Ctx κ V) (s : St κ V) (w i k : Nat) : St κ V :=
  if k ≤ c.opts.retry ∧ s.stopped = false then
    { s with workers := s.workers.set w (.running i k),
             invLog := s.invLog ++ [(i, k, s.aborted)] }
  else { s with workers := s.workers.set w .atLoop }

/-- One scheduler step of the `promise.ts` machine. -/
def stepP {κ V : Type} (c : Ctx κ V) (s : St κ V) : Ev → St κ V
  | .work w =>
    match s.workers[w]? with
    | none => s
    | some .done => s
    | some .atLoop => loopStep c s w
    | some (.running i k) => resolveStep c s w i k
    | some (.delaying i k) => delayResume c s w i k
  | .abortFire =>
    if c.opts.hasSignal ∧ s.aborted = false then { s with aborted := true } else s
  | .timerFire =>
    match c.opts.timeout with
    | none => s
    | some _ =>
      if s.timedOut ∨ finishedSt s then s
      else { s with stopped := true, timedOut := true }

/-- Run the machine from state `s` through a schedule. -/
def execFrom {κ V : Type} (c : Ctx κ V) (s : St κ V) (evs : List Ev) : St κ V :=
  evs.foldl (stepP c) s

/-- Run the machine from the initial state through a schedule. -/
def execP {κ V : Type} (c : Ctx κ V) (evs : List Ev) : St κ V :=
  execFrom c (initSt c) evs

/-- The two ways a run can reject: the timeout race losing, or a captured
first error being rethrown by `throwOnFirstError`. -/
inductive RunError where
  | timeout (msg : String)
  | taskError (msg : String)
  deriving DecidableEq, Repr

/-- The message of the rejection thrown when the timeout race loses. -/
def timeoutMsg (t : Nat) : String :=
  "Concurrence timed out after " ++ toString t ++ "ms"

/-- The `ConcurrenceResult` record (wall-clock `duration` not modelled). -/
structure RunResult (ρ : Type) where
  results : ρ
  errors : List String
  succeeded : Nat
  failed : Nat
  deriving DecidableEq, Repr

/-- Settling of the runner's returned promise, given the state after the
pool settles or the timeout fires: a timeout rejection if the race was
lost, else the `firstError && throwOnFirstError` rethrow, else the
assembled result object. -/
def outcomeWith {κ V ρ : Type} (assemble : List (κ × V) → ρ) (opts : Options)
    (s : St κ V) : Except RunError (RunResult ρ) :=
  if s.timedOut then .error (.timeout (timeoutMsg (opts.timeout.getD 0)))
  else
    match s.firstError with
    | some e => if opts.throwOnFirstError then .error (.taskError e)
                else .ok ⟨assemble s.resultEntries, s.errors, s.succeeded, s.failed⟩
    | none => .ok ⟨assemble s.resultEntries, s.errors, s.succeeded, s.failed⟩

/-- Output assembly for list-shaped input: sort the completion-order
`(key, value)` pairs by numeric key (`.sort((a, b) => Number(a[0]) -
Number(b[0]))`) and keep the values. -/
def assembleList {V : Type} (l : List (Nat × V)) : List V :=
  (List.insertionSort (fun a b => a.1 ≤ b.1) l).map Prod.snd

/-- The `promise.ts` `withConcurrency` on list-shaped input: keys are the
positional indices; empty input returns the zero result at once without
spawning workers; otherwise the pool runs under the given schedule. -/
def runListP {V : Type} (tasks : List (Nat → TaskOutcome V)) (opts : Options)
    (sched : List Ev) : Except RunError (RunResult (List V)) :=
  let c : Ctx Nat V := ⟨tasks.enum, opts⟩
  if tasks.length = 0 then .ok ⟨[], [], 0, 0⟩
  else outcomeWith assembleList opts (execP c sched)

/-- The `promise.ts` `withConcurrency` on mapping-shaped input: entries
keep their own keys in iteration order; the result mapping
(`Object.fromEntries(resultEntries)`) is modelled as the association list
in completion order. -/
def runObjP {V : Type} (tasks : List (String × (Nat → TaskOutcome V)))
    (opts : Options) (sched : List Ev) :
    Except RunError (RunResult (List (String × V))) :=
  let c : Ctx String V := ⟨tasks, opts⟩
  if tasks.length = 0 then .ok ⟨[], [], 0, 0⟩
  else outcomeWith id opts (execP c sched)

/-- A task of the `concurrency.ts` runner: either a thunk or an
already-started `Promise`.  Awaiting a promise again on a retry observes
the same settled outcome every time. -/
inductive TaskC (V : Type) where
  | thunk (beh : Nat → TaskOutcome V)
  | prom (o : TaskOutcome V)

/-- `await (typeof task === 'function' ? task() : task)` at call count `k`. -/
def TaskC.attempt {V : Type} : TaskC V → Nat → TaskOutcome V
  | .thunk beh, k => beh k
  | .prom o, _ => o

/-- Run context for the `concurrency.ts` runner. -/
structure CtxC (κ V : Type) where
  entries : List (κ × TaskC V)
  opts : Options

/-- `taskKeys.length`. -/
def CtxC.n {κ V : Type} (c : CtxC κ V) : Nat := c.entries.length

/-- `Math.min(concurrency, taskKeys.length)`. -/
def CtxC.workerCount {κ V : Type} (c : CtxC κ V) : Nat :=
  match c.opts.concurrency with
  | none => c.n
  | some lim => min lim c.n

/-- Initial state of the `concurrency.ts` machine. -/
def initStC {κ V : Type} (c : CtxC κ V) : St κ V :=
  { cursor := 0, succeeded := 0, failed := 0, stopped := false,
    timedOut := false, aborted := false, resultEntries := [], errors := [],
    firstError := none, workers := List.replicate c.workerCount .atLoop,
    invLog := [], errLog := [] }

/-- Worker loop body of `concurrency.ts` (lines 132-143); textually the
same as the `promise.ts` one. -/
def loopStepC {κ V : Type} (c : CtxC κ V) (s : St κ V) (w : Nat) : St κ V :=
  if s.stopped then { s with workers := s.workers.set w .done }
  else if s.cursor ≥ c.n then
    { s with cursor := s.cursor + 1, workers := s.workers.set w .done }
  else if s.aborted then
    { s with cursor := s.cursor + 1, stopped := true,
             workers := s.workers.set w .done }
  else
    { s with cursor := s.cursor + 1,
             workers := s.workers.set w (.running s.cursor 0),
             invLog := s.invLog ++ [(s.cursor, 0, s.aborted)] }

/-- Settling of attempt `k` of entry `i` in `concurrency.ts` `runTask`
(lines 101-130): identical to the `promise.ts` block except that the task
is dispatched with `typeof task === 'function' ? task() : task`. -/
def resolveStepC {κ V : Type} (c : CtxC κ V) (s : St κ V) (w i k : Nat) : St κ V :=
  match c.entries[i]? with
  | none => s
  | some (key, task) =>
    match task.attempt k with
    | .ok v =>
      { s with resultEntries := s.resultEntries ++ [(key, v)],
               succeeded := s.succeeded + 1, workers := s.workers.set w .atLoop }
    | .err e =>
      if k = c.opts.retry then
        if ¬ c.opts.ignoreErrors ∧ c.opts.throwOnFirstError ∧ s.firstError = none
        then { s with errors := s.errors ++ [normalizeErr e],
                      failed := s.failed + 1, errLog := s.errLog ++ [i],
                      workers := s.workers.set w .atLoop,
                      firstError := some (normalizeErr e), stopped := true }
        else { s with errors := s.errors ++ [normalizeErr e],
                      failed := s.failed + 1, errLog := s.errLog ++ [i],
                      workers := s.workers.set w .atLoop }
      else if 0 < c.opts.retryDelay then
        { s with workers := s.workers.set w (.delaying i (k + 1)) }
      else if s.stopped then { s with workers := s.workers.set w .atLoop }
      else
        { s with workers := s.workers.set w (.running i (k + 1)),
                 invLog := s.invLog ++ [(i, k + 1, s.aborted)] }

/-- Resumption after the inter-retry `sleep` in `concurrency.ts`. -/
def delayResumeC {κ V : Type} (c : CtxC κ V) (s : St κ V) (w i k : Nat) : St κ V :=
  if k ≤ c.opts.retry ∧ s.stopped = false then
    { s with workers := s.workers.set w (.running i k),
             invLog := s.invLog ++ [(i, k, s.aborted)] }
  else { s with workers := s.workers.set w .atLoop }

/-- One scheduler step of the `concurrency.ts` machine. -/
def stepC {κ V : Type} (c : CtxC κ V) (s : St κ V) : Ev → St κ V
  | .work w =>
    match s.workers[w]? with
    | none => s
    | some .done => s
    | some .atLoop => loopStepC c s w
    | some (.running i k) => resolveStepC c s w i k
    | some (.delaying i k) => delayResumeC c s w i k
  | .abortFire =>
    if c.opts.hasSignal ∧ s.aborted = false then { s with aborted := true } else s
  | .timerFire =>
    match c.opts.timeout with
    | none => s
    | some _ =>
      if s.timedOut ∨ finishedSt s then s
      else { s with stopped := true, timedOut := true }

/-- Run the `concurrency.ts` machine from its initial state. -/
def execC {κ V : Type} (c : CtxC κ V) (evs : List Ev) : St κ V :=
  evs.foldl (stepC c) (initStC c)

/-- The `concurrency.ts` `withConcurrency` on list-shaped input. -/
def runListC {V : Type} (tasks : List (TaskC V)) (opts : Options)
    (sched : List Ev) : Except RunError (RunResult (List V)) :=
  let c : CtxC Nat V := ⟨tasks.enum, opts⟩
  if tasks.length = 0 then .ok ⟨[], [], 0, 0⟩
  else outcomeWith assembleList opts (execC c sched)

/-- The `concurrency.ts` `withConcurrency` on mapping-shaped input. -/
def runObjC {V : Type} (tasks : List (String × TaskC V)) (opts : Options)
    (sched : List Ev) : Except RunError (RunResult (List (String × V))) :=
  let c : CtxC String V := ⟨tasks, opts⟩
  if tasks.length = 0 then .ok ⟨[], [], 0, 0⟩
  else outcomeWith id opts (execC c sched)

/-! ## Derived observations on states -/

/-- Number of invocations of entry `i`'s thunk recorded so far. -/
def countInv {κ V : Type} (s : St κ V) (i : Nat) : Nat :=
  s.invLog.countP (fun e => e.1 == i)

/-- The entry indices of first attempts (attempt number 0), in invocation
order: the order in which entries entered execution. -/
def firstInvSeq {κ V : Type} (s : St κ V) : List Nat :=
  s.invLog.filterMap (fun e => if e.2.1 == 0 then some e.1 else none)

/-- Sum of a weight over the worker pool. -/
def wsum (f : WStatus → Nat) (l : List WStatus) : Nat :=
  (l.map f).sum

/-- Weight 1 for a worker currently inside `runTask`. -/
def activeBit : WStatus → Nat
  | .running _ _ => 1
  | .delaying _ _ => 1
  | _ => 0

/-- Weight 1 for a worker whose loop has returned. -/
def doneBit : WStatus → Nat
  | .done => 1
  | _ => 0

/-- Number of workers currently inside `runTask`. -/
def activeCount {κ V : Type} (s : St κ V) : Nat :=
  wsum activeBit s.workers

/-- Number of workers whose loop has returned. -/
def doneCount {κ V : Type} (s : St κ V) : Nat :=
  wsum doneBit s.workers

/-- Remaining-invocation budget of a worker: how many further invocations
it can still cause for its current entry. -/
def slackOf (r : Nat) : WStatus → Nat
  | .running _ k => r - k
  | .delaying _ k => r - k + 1
  | _ => 0

/-- Total remaining-invocation budget of the pool. -/
def workerSlack {κ V : Type} (r : Nat) (s : St κ V) : Nat :=
  wsum (slackOf r) s.workers

/-- Worker `w` currently holds entry `i`. -/
def holds {κ V : Type} (s : St κ V) (w i : Nat) : Prop :=
  ∃ st, s.workers[w]? = some st ∧ st.activeIdx = some i

/-- No worker currently holds entry `i`. -/
def noActiveOn {κ V : Type} (s : St κ V) (i : Nat) : Prop :=
  ∀ w, ¬ holds s w i

/-! ## List helper lemmas -/

/-- Updating one slot exchanges its weight in a pool sum. -/
theorem wsum_set (f : WStatus → Nat) (l : List WStatus) (w : Nat) (x : WStatus)
    (h : w < l.length) :
    wsum f (l.set w x) + f (l.get ⟨w, h⟩) = wsum f l + f x := by
  induction l generalizing w with
  | nil => simp at h
  | cons a l ih =>
    cases w with
    | zero => simp [wsum, List.set]; omega
    | succ w =>
      simp only [List.set, wsum, List.map_cons, List.sum_cons, List.get] at *
      have := ih w (by simpa using h)
      omega

/-- Reading an updated pool. -/
theorem getElem?_set_pool (l : List WStatus) (w : Nat) (x : WStatus) (u : Nat) :
    (l.set w x)[u]? = if w = u then (if w < l.length then some x else none) else l[u]? :=
  List.getElem?_set

/-- `holds` after updating one slot. -/
theorem holds_set {κ V : Type} (s : St κ V) (l : List WStatus) (w : Nat)
    (x : WStatus) (u i : Nat) (hlen : w < s.workers.length)
    (hl : l = s.workers.set w x) :
    (∃ st, l[u]? = some st ∧ st.activeIdx = some i) ↔
      ((u = w ∧ x.activeIdx = some i) ∨ (u ≠ w ∧ holds s u i)) := by
  subst hl
  constructor
  · rintro ⟨st, hst, hidx⟩
    rw [getElem?_set_pool] at hst
    by_cases hwu : w = u
    · subst hwu; simp [hlen] at hst; subst hst; exact .inl ⟨rfl, hidx⟩
    · exact .inr ⟨fun h => hwu h.symm, ⟨st, by simpa [hwu] using hst, hidx⟩⟩
  · rintro (⟨rfl, hidx⟩ | ⟨hne, st, hst, hidx⟩)
    · exact ⟨x, by simp [getElem?_set_pool, hlen], hidx⟩
    · refine ⟨st, ?_, hidx⟩
      have hwu : w ≠ u := fun h => hne h.symm
      rw [getElem?_set_pool]
      simpa [hwu] using hst

/-- Invocation count after logging one invocation. -/
theorem countInv_append {κ V : Type} (s : St κ V) (l : List (Nat × Nat × Bool))
    (a : Nat) (b : Nat) (fl : Bool) (i : Nat)
    (hl : l = s.invLog ++ [(a, b, fl)]) :
    ({ s with invLog := l } : St κ V).invLog.countP (fun e => e.1 == i) =
      countInv s i + (if a = i then 1 else 0) := by
  subst hl
  simp only [countInv, List.countP_append, List.countP_cons, List.countP_nil]
  by_cases h : a = i <;> simp [h]

/-- `countInv` only looks at `invLog`. -/
theorem countInv_congr {κ V : Type} (s s' : St κ V) (i : Nat)
    (h : s'.invLog = s.invLog) : countInv s' i = countInv s i := by
  simp [countInv, h]

/-- First-invocation order after logging a retry attempt (`1 ≤ b`). -/
theorem firstInvSeq_append_pos {κ V : Type} (s s' : St κ V) (a b : Nat)
    (fl : Bool) (hb : 1 ≤ b) (hl : s'.invLog = s.invLog ++ [(a, b, fl)]) :
    firstInvSeq s' = firstInvSeq s := by
  simp only [firstInvSeq, hl, List.filterMap_append]
  have : b ≠ 0 := by omega
  simp [this]

/-- First-invocation order after logging a first attempt. -/
theorem firstInvSeq_append_zero {κ V : Type} (s s' : St κ V) (a : Nat)
    (fl : Bool) (hl : s'.invLog = s.invLog ++ [(a, 0, fl)]) :
    firstInvSeq s' = firstInvSeq s ++ [a] := by
  simp [firstInvSeq, hl, List.filterMap_append]

/-- `firstInvSeq` only looks at `invLog`. -/
theorem firstInvSeq_congr {κ V : Type} (s s' : St κ V)
    (h : s'.invLog = s.invLog) : firstInvSeq s' = firstInvSeq s := by
  simp [firstInvSeq, h]

/-- A worker either is recorded at an index or the pool read is stable
under `set` at another index. -/
theorem getElem?_set_self (l : List WStatus) (w : Nat) (x : WStatus)
    (h : w < l.length) : (l.set w x)[w]? = some x := by
  rw [getElem?_set_pool]; simp [h]

/-- Well-formedness of a single worker's status against the run state:
bounds, the link between the status and the invocation log, the record
that all earlier attempts of its entry failed, and that its entry is not
yet completed. -/
def WOK {κ V : Type} (c : Ctx κ V) (s : St κ V) : WStatus → Prop
  | .running i k =>
    i < s.cursor ∧ k ≤ c.opts.retry ∧ i ∉ s.errLog ∧ countInv s i = k + 1 ∧
    ∃ key b, c.entries[i]? = some (key, b) ∧ (∀ j < k, (b j).isErr) ∧
      key ∉ s.resultEntries.map Prod.fst
  | .delaying i k =>
    i < s.cursor ∧ 1 ≤ k ∧ k ≤ c.opts.retry ∧ i ∉ s.errLog ∧ countInv s i = k ∧
    ∃ key b, c.entries[i]? = some (key, b) ∧ (∀ j < k, (b j).isErr) ∧
      key ∉ s.resultEntries.map Prod.fst
  | _ => True

/-- The main unconditional invariant of the machine, tying every component
of the run state to the ghost logs. -/
structure MInv {κ V : Type} (c : Ctx κ V) (s : St κ V) : Prop where
  wlen : s.workers.length = c.workerCount
  cntS : s.resultEntries.length = s.succeeded
  cntF : s.errors.length = s.failed
  errLen : s.errLog.length = s.errors.length
  fe1 : ¬ (c.opts.throwOnFirstError = true ∧ c.opts.ignoreErrors = false) →
    s.firstError = none
  fe2 : c.opts.throwOnFirstError = true → c.opts.ignoreErrors = false →
    s.firstError = s.errors.head?
  feStop : s.firstError.isSome = true → s.stopped = true
  stopSrc : s.stopped = true →
    s.aborted = true ∨ s.timedOut = true ∨ s.firstError.isSome = true
  active : ∀ (w : Nat) (st : WStatus), s.workers[w]? = some st → WOK c s st
  distinct : ∀ w1 w2 i, holds s w1 i → holds s w2 i → w1 = w2
  unclaimed : ∀ i, s.cursor ≤ i → countInv s i = 0
  cntBound : ∀ i, countInv s i ≤ c.opts.retry + 1
  resStruct : ∀ p ∈ s.resultEntries, ∃ i key b j,
    c.entries[i]? = some (key, b) ∧ key = p.1 ∧ i < s.cursor ∧
    j ≤ c.opts.retry ∧ b j = .ok p.2 ∧ (∀ j' < j, (b j').isErr) ∧
    countInv s i = j + 1
  resNodup : (s.resultEntries.map Prod.fst).Nodup
  errStruct : ∀ i ∈ s.errLog, countInv s i = c.opts.retry + 1
  errBeh : ∀ i ∈ s.errLog, ∃ key b, c.entries[i]? = some (key, b) ∧
    ∀ j ≤ c.opts.retry, (b j).isErr
  errNodup : s.errLog.Nodup
  firstinv : ∃ m, firstInvSeq s = List.range m ∧
    (m = min s.cursor c.n ∨ (m + 1 = min s.cursor c.n ∧ s.stopped = true))
  logBound : s.invLog.length + workerSlack c.opts.retry s ≤
    (c.opts.retry + 1) * min s.cursor c.n
  curBound : s.cursor ≤ c.n + doneCount s

/-- The parts of the invariant that hold as long as the run was never
stopped: exact accounting of dispositions. -/
structure NSInv {κ V : Type} (c : Ctx κ V) (s : St κ V) : Prop where
  core : s.succeeded + s.failed + activeCount s = min s.cursor c.n
  doneCur : (∃ st ∈ s.workers, st = .done) → c.n ≤ s.cursor
  completedFull : ∀ i, i < min s.cursor c.n → noActiveOn s i →
    (∃ key b, c.entries[i]? = some (key, b) ∧
      key ∈ s.resultEntries.map Prod.fst) ∨ i ∈ s.errLog

/-- Exchange of one worker's weight in a pool sum, from an indexed read. -/
theorem wsum_set_of_read (f : WStatus → Nat) {l : List WStatus} {w : Nat}
    {st : WStatus} (x : WStatus) (hw : l[w]? = some st) :
    wsum f (l.set w x) + f st = wsum f l + f x := by
  obtain ⟨hlt, heq⟩ := List.getElem?_eq_some.mp hw
  have := wsum_set f l w x hlt
  rw [show l.get ⟨w, hlt⟩ = st from by simpa [List.get_eq_getElem] using heq] at this
  exact this

/-- `WOK` only depends on the non-worker components it mentions. -/
theorem WOK_congr {κ V : Type} (c : Ctx κ V) {s s' : St κ V} (st : WStatus)
    (hcur : s'.cursor = s.cursor) (herr : s'.errLog = s.errLog)
    (hinv : s'.invLog = s.invLog) (hres : s'.resultEntries = s.resultEntries)
    (h : WOK c s st) : WOK c s' st := by
  cases st <;> simp only [WOK] at h ⊢ <;>
    simp_all [countInv]

/-- Case split for a read from an updated pool. -/
theorem read_set {l : List WStatus} {w : Nat} {st : WStatus} (x : WStatus)
    (hw : l[w]? = some st) (u : Nat) {y : WStatus}
    (hy : (l.set w x)[u]? = some y) :
    (u = w ∧ y = x) ∨ (u ≠ w ∧ l[u]? = some y) := by
  have hlt : w < l.length := (List.getElem?_eq_some.mp hw).1
  rw [getElem?_set_pool] at hy
  by_cases h : w = u
  · subst h; simp [hlt] at hy; exact .inl ⟨rfl, hy.symm⟩
  · exact .inr ⟨fun hh => h hh.symm, by simpa [h] using hy⟩

/-- A read from an updated pool at another index. -/
theorem read_set_other {l : List WStatus} {w : Nat} (x : WStatus) {u : Nat}
    (hne : u ≠ w) : (l.set w x)[u]? = l[u]? := by
  have h : w ≠ u := fun hh => hne hh.symm
  rw [getElem?_set_pool]; simp [h]

/-- Worker observes `stopped` at the loop head and exits. -/
theorem minv_L_stop {κ V : Type} (c : Ctx κ V) (s : St κ V) (w : Nat)
    (hI : MInv c s) (hw : s.workers[w]? = some .atLoop) :
    MInv c { s with workers := s.workers.set w .done } := by
  refine
    { wlen := by simp [hI.wlen], cntS := hI.cntS, cntF := hI.cntF,
      errLen := hI.errLen, fe1 := hI.fe1, fe2 := hI.fe2, feStop := hI.feStop,
      stopSrc := hI.stopSrc, unclaimed := hI.unclaimed,
      cntBound := hI.cntBound, resStruct := hI.resStruct,
      resNodup := hI.resNodup, errStruct := hI.errStruct, errBeh := hI.errBeh,
      errNodup := hI.errNodup, firstinv := hI.firstinv,
      active := ?_, distinct := ?_, logBound := ?_, curBound := ?_ }
  · intro u st hu
    rcases read_set .done hw u hu with ⟨_, rfl⟩ | ⟨_, hu⟩
    · trivial
    · exact WOK_congr c st rfl rfl rfl rfl (hI.active u st hu)
  · intro w1 w2 i h1 h2
    obtain ⟨st1, hst1, hidx1⟩ := h1
    obtain ⟨st2, hst2, hidx2⟩ := h2
    rcases read_set .done hw w1 hst1 with ⟨_, rfl⟩ | ⟨_, hst1⟩
    · simp [WStatus.activeIdx] at hidx1
    rcases read_set .done hw w2 hst2 with ⟨_, rfl⟩ | ⟨_, hst2⟩
    · simp [WStatus.activeIdx] at hidx2
    exact hI.distinct w1 w2 i ⟨st1, hst1, hidx1⟩ ⟨st2, hst2, hidx2⟩
  · have h := wsum_set_of_read (slackOf c.opts.retry) .done hw
    simp only [slackOf] at h
    have hb := hI.logBound
    simp only [workerSlack] at hb ⊢
    omega
  · have h := wsum_set_of_read doneBit .done hw
    simp only [doneBit] at h
    have hb := hI.curBound
    simp only [doneCount] at hb ⊢
    omega

/-- Entry keys are unique, so a key determines the entry index. -/
theorem keys_inj {κ V : Type} {c : Ctx κ V}
    (hkeys : (c.entries.map Prod.fst).Nodup) {i j : Nat} {key : κ}
    {b1 b2 : Nat → TaskOutcome V} (hi : c.entries[i]? = some (key, b1))
    (hj : c.entries[j]? = some (key, b2)) : i = j := by
  obtain ⟨hilt, hie⟩ := List.getElem?_eq_some.mp hi
  obtain ⟨hjlt, hje⟩ := List.getElem?_eq_some.mp hj
  by_contra hne
  have hilt2 : i < (c.entries.map Prod.fst).length := by simpa using hilt
  have hjlt2 : j < (c.entries.map Prod.fst).length := by simpa using hjlt
  have hmap : (c.entries.map Prod.fst).get ⟨i, hilt2⟩ =
      (c.entries.map Prod.fst).get ⟨j, hjlt2⟩ := by
    simp [List.get_eq_getElem, List.getElem_map, hie, hje]
  have hfe : (⟨i, hilt2⟩ : Fin (c.entries.map Prod.fst).length) = ⟨j, hjlt2⟩ :=
    (List.Nodup.get_inj_iff hkeys).mp hmap
  exact hne (by simpa using congrArg Fin.val hfe)

/-- Transport of `WOK` along a step that can only raise the cursor, keeps
the error log and completed entries, and does not log new invocations of
the worker's own entry. -/
theorem WOK_shift {κ V : Type} (c : Ctx κ V) {s s' : St κ V} (st : WStatus)
    (h : WOK c s st) (hcur : s.cursor ≤ s'.cursor) (herr : s'.errLog = s.errLog)
    (hres : s'.resultEntries = s.resultEntries)
    (hcnt : ∀ i, st.activeIdx = some i → countInv s' i = countInv s i) :
    WOK c s' st := by
  cases st with
  | running i k =>
    have hc := hcnt i (by simp [WStatus.activeIdx])
    simp only [WOK] at h ⊢
    rw [herr, hres, hc]
    obtain ⟨h1, rest⟩ := h
    exact ⟨by omega, rest⟩
  | delaying i k =>
    have hc := hcnt i (by simp [WStatus.activeIdx])
    simp only [WOK] at h ⊢
    rw [herr, hres, hc]
    obtain ⟨h1, rest⟩ := h
    exact ⟨by omega, rest⟩
  | atLoop => trivial
  | done => trivial

/-- Transport of `WOK` along a step that can only raise the cursor and
keeps the logs and completed entries. -/
theorem WOK_shift_inv {κ V : Type} (c : Ctx κ V) {s s' : St κ V} (st : WStatus)
    (h : WOK c s st) (hcur : s.cursor ≤ s'.cursor) (herr : s'.errLog = s.errLog)
    (hres : s'.resultEntries = s.resultEntries)
    (hinv : s'.invLog = s.invLog) : WOK c s' st :=
  WOK_shift c st h hcur herr hres (fun i _ => countInv_congr s s' i hinv)

/-- Any held entry index lies below the cursor. -/
theorem holds_lt {κ V : Type} {c : Ctx κ V} {s : St κ V} (hI : MInv c s)
    {u i : Nat} (h : holds s u i) : i < s.cursor := by
  obtain ⟨st, hst, hidx⟩ := h
  have hwok := hI.active u st hst
  cases st with
  | running i' k =>
    simp only [WStatus.activeIdx, Option.some.injEq] at hidx
    simp only [WOK] at hwok
    omega
  | delaying i' k =>
    simp only [WStatus.activeIdx, Option.some.injEq] at hidx
    simp only [WOK] at hwok
    omega
  | atLoop => simp [WStatus.activeIdx] at hidx
  | done => simp [WStatus.activeIdx] at hidx

/-- Worker claims `i = taskIndex++` with the entries exhausted and exits. -/
theorem minv_L_past {κ V : Type} (c : Ctx κ V) (s : St κ V) (w : Nat)
    (hI : MInv c s) (hw : s.workers[w]? = some .atLoop)
    (hn : c.n ≤ s.cursor) :
    MInv c { s with cursor := s.cursor + 1, workers := s.workers.set w .done } := by
  have hmin : min (s.cursor + 1) c.n = min s.cursor c.n := by omega
  refine
    { wlen := by simp [hI.wlen], cntS := hI.cntS, cntF := hI.cntF,
      errLen := hI.errLen, fe1 := hI.fe1, fe2 := hI.fe2, feStop := hI.feStop,
      stopSrc := hI.stopSrc,
      cntBound := hI.cntBound,
      resNodup := hI.resNodup, errStruct := hI.errStruct, errBeh := hI.errBeh,
      errNodup := hI.errNodup,
      unclaimed := fun i hi => hI.unclaimed i (by dsimp only at hi; omega),
      active := ?_, distinct := ?_, resStruct := ?_, firstinv := ?_,
      logBound := ?_, curBound := ?_ }
  · intro u st hu
    dsimp only at hu ⊢
    rcases read_set .done hw u hu with ⟨_, rfl⟩ | ⟨_, hu⟩
    · trivial
    · exact WOK_shift_inv c st (hI.active u st hu) (by dsimp only; omega) rfl rfl rfl
  · intro w1 w2 i h1 h2
    obtain ⟨st1, hst1, hidx1⟩ := h1
    obtain ⟨st2, hst2, hidx2⟩ := h2
    dsimp only at hst1 hst2
    rcases read_set .done hw w1 hst1 with ⟨_, rfl⟩ | ⟨_, hst1⟩
    · simp [WStatus.activeIdx] at hidx1
    rcases read_set .done hw w2 hst2 with ⟨_, rfl⟩ | ⟨_, hst2⟩
    · simp [WStatus.activeIdx] at hidx2
    exact hI.distinct w1 w2 i ⟨st1, hst1, hidx1⟩ ⟨st2, hst2, hidx2⟩
  · intro p hp
    obtain ⟨i, key, b, j, h1, h2, h3, rest⟩ := hI.resStruct p hp
    exact ⟨i, key, b, j, h1, h2, by dsimp only; omega, rest⟩
  · obtain ⟨m, hm, hd⟩ := hI.firstinv
    refine ⟨m, hm, ?_⟩
    rw [hmin]
    exact hd
  · have h := wsum_set_of_read (slackOf c.opts.retry) .done hw
    simp only [slackOf] at h
    have hb := hI.logBound
    simp only [workerSlack] at hb ⊢
    rw [hmin]
    omega
  · have h := wsum_set_of_read doneBit .done hw
    simp only [doneBit] at h
    have hb := hI.curBound
    simp only [doneCount] at hb ⊢
    omega

/-- Worker claims an entry but observes the fired abort signal: it sets
`stopped` and exits without running the claimed entry. -/
theorem minv_L_abort {κ V : Type} (c : Ctx κ V) (s : St κ V) (w : Nat)
    (hI : MInv c s) (hw : s.workers[w]? = some .atLoop)
    (hn : s.cursor < c.n) (hstop : s.stopped = false) (ha : s.aborted = true) :
    MInv c { s with cursor := s.cursor + 1, stopped := true,
                    workers := s.workers.set w .done } := by
  refine
    { wlen := by simp [hI.wlen], cntS := hI.cntS, cntF := hI.cntF,
      errLen := hI.errLen, fe1 := hI.fe1, fe2 := hI.fe2,
      feStop := fun _ => rfl,
      stopSrc := fun _ => .inl ha,
      cntBound := hI.cntBound,
      resNodup := hI.resNodup, errStruct := hI.errStruct, errBeh := hI.errBeh,
      errNodup := hI.errNodup,
      unclaimed := fun i hi => hI.unclaimed i (by dsimp only at hi; omega),
      active := ?_, distinct := ?_, resStruct := ?_, firstinv := ?_,
      logBound := ?_, curBound := ?_ }
  · intro u st hu
    dsimp only at hu ⊢
    rcases read_set .done hw u hu with ⟨_, rfl⟩ | ⟨_, hu⟩
    · trivial
    · exact WOK_shift_inv c st (hI.active u st hu) (by dsimp only; omega) rfl rfl rfl
  · intro w1 w2 i h1 h2
    obtain ⟨st1, hst1, hidx1⟩ := h1
    obtain ⟨st2, hst2, hidx2⟩ := h2
    dsimp only at hst1 hst2
    rcases read_set .done hw w1 hst1 with ⟨_, rfl⟩ | ⟨_, hst1⟩
    · simp [WStatus.activeIdx] at hidx1
    rcases read_set .done hw w2 hst2 with ⟨_, rfl⟩ | ⟨_, hst2⟩
    · simp [WStatus.activeIdx] at hidx2
    exact hI.distinct w1 w2 i ⟨st1, hst1, hidx1⟩ ⟨st2, hst2, hidx2⟩
  · intro p hp
    obtain ⟨i, key, b, j, h1, h2, h3, rest⟩ := hI.resStruct p hp
    exact ⟨i, key, b, j, h1, h2, by dsimp only; omega, rest⟩
  · obtain ⟨m, hm, hd⟩ := hI.firstinv
    refine ⟨m, hm, ?_⟩
    rcases hd with h | ⟨h, hs⟩
    · exact .inr ⟨by change m + 1 = min (s.cursor + 1) c.n; omega, rfl⟩
    · rw [hstop] at hs; cases hs
  · have h := wsum_set_of_read (slackOf c.opts.retry) .done hw
    simp only [slackOf] at h
    have hb := hI.logBound
    simp only [workerSlack] at hb ⊢
    have hmin : min (s.cursor + 1) c.n = min s.cursor c.n + 1 := by omega
    rw [hmin, Nat.mul_succ]
    omega
  · have hb := hI.curBound
    simp only [doneCount]
    omega

/-- Worker claims entry `i = taskIndex++` and synchronously invokes its
first attempt. -/
theorem minv_L_claim {κ V : Type} (c : Ctx κ V) (s : St κ V) (w : Nat)
    (hkeys : (c.entries.map Prod.fst).Nodup)
    (hI : MInv c s) (hw : s.workers[w]? = some .atLoop)
    (hn : s.cursor < c.n) (hstop : s.stopped = false) (ha : s.aborted = false) :
    MInv c { s with cursor := s.cursor + 1,
                    workers := s.workers.set w (.running s.cursor 0),
                    invLog := s.invLog ++ [(s.cursor, 0, s.aborted)] } := by
  have hlt : w < s.workers.length := (List.getElem?_eq_some.mp hw).1
  have hcnt0 : countInv s s.cursor = 0 := hI.unclaimed s.cursor (le_refl _)
  have hcnew : ∀ i, countInv
      ({ s with cursor := s.cursor + 1,
                workers := s.workers.set w (.running s.cursor 0),
                invLog := s.invLog ++ [(s.cursor, 0, s.aborted)] } : St κ V) i =
      countInv s i + (if s.cursor = i then 1 else 0) :=
    fun i => countInv_append s _ s.cursor 0 s.aborted i rfl
  refine
    { wlen := by simp [hI.wlen], cntS := hI.cntS, cntF := hI.cntF,
      errLen := hI.errLen, fe1 := hI.fe1, fe2 := hI.fe2, feStop := hI.feStop,
      stopSrc := hI.stopSrc,
      resNodup := hI.resNodup,
      errNodup := hI.errNodup,
      unclaimed := ?_, cntBound := ?_,
      active := ?_, distinct := ?_, resStruct := ?_, errStruct := ?_, errBeh := ?_,
      firstinv := ?_, logBound := ?_, curBound := ?_ }
  · intro u st hu
    dsimp only at hu
    rcases read_set (.running s.cursor 0) hw u hu with ⟨_, rfl⟩ | ⟨_, hu⟩
    · -- the claiming worker itself
      simp only [WOK]
      refine ⟨by change s.cursor < s.cursor + 1; omega, by omega, ?_, ?_, ?_⟩
      · -- the claimed entry has no captured error yet
        intro hmem
        have := hI.errStruct _ hmem
        omega
      · rw [hcnew s.cursor, hcnt0]; simp
      · refine ⟨(c.entries.get ⟨s.cursor, hn⟩).1, (c.entries.get ⟨s.cursor, hn⟩).2,
          by simp [List.getElem?_eq_getElem hn, List.get_eq_getElem],
          by omega, ?_⟩
        -- the claimed entry cannot already be completed
        intro hmem
        simp only [List.mem_map] at hmem
        obtain ⟨p, hp, hkey⟩ := hmem
        obtain ⟨i2, key2, b2, j2, he2, hk2, hlt2, _⟩ := hI.resStruct p hp
        have he3 : c.entries[s.cursor]? =
            some ((c.entries.get ⟨s.cursor, hn⟩).1,
              (c.entries.get ⟨s.cursor, hn⟩).2) := by
          simp [List.getElem?_eq_getElem hn, List.get_eq_getElem]
        have heq : i2 = s.cursor := by
          have he4 : c.entries[i2]? = some (p.1, b2) := by
            rw [hk2] at he2
            exact he2
          have he5 : c.entries[s.cursor]? =
              some (p.1, (c.entries.get ⟨s.cursor, hn⟩).2) := by
            rw [← hkey] at he3
            exact he3
          exact keys_inj hkeys he4 he5
        omega
    · refine WOK_shift c st (hI.active u st hu) (by dsimp only; omega) rfl rfl ?_
      intro i hidx
      rw [hcnew i]
      have hwok := hI.active u st hu
      have hlt2 : i < s.cursor := by
        cases st with
        | running i' k =>
          simp only [WStatus.activeIdx, Option.some.injEq] at hidx
          simp only [WOK] at hwok; omega
        | delaying i' k =>
          simp only [WStatus.activeIdx, Option.some.injEq] at hidx
          simp only [WOK] at hwok; omega
        | atLoop => simp [WStatus.activeIdx] at hidx
        | done => simp [WStatus.activeIdx] at hidx
      have h1 : s.cursor ≠ i := by omega
      simp [h1]
  · intro w1 w2 i h1 h2
    obtain ⟨st1, hst1, hidx1⟩ := h1
    obtain ⟨st2, hst2, hidx2⟩ := h2
    dsimp only at hst1 hst2
    rcases read_set (.running s.cursor 0) hw w1 hst1 with ⟨e1, rfl⟩ | ⟨e1, hst1⟩ <;>
      rcases read_set (.running s.cursor 0) hw w2 hst2 with ⟨e2, rfl⟩ | ⟨e2, hst2⟩
    · rw [e1, e2]
    · -- w1 is the claimer, w2 holds i in the old state: impossible
      simp only [WStatus.activeIdx, Option.some.injEq] at hidx1
      have := holds_lt hI ⟨st2, hst2, hidx2⟩
      omega
    · simp only [WStatus.activeIdx, Option.some.injEq] at hidx2
      have := holds_lt hI ⟨st1, hst1, hidx1⟩
      omega
    · exact hI.distinct w1 w2 i ⟨st1, hst1, hidx1⟩ ⟨st2, hst2, hidx2⟩
  · intro i hi
    dsimp only at hi
    rw [hcnew i]
    have h1 : s.cursor ≠ i := by omega
    rw [hI.unclaimed i (by omega)]
    simp [h1]
  · intro i
    rw [hcnew i]
    by_cases h : s.cursor = i
    · subst h; rw [hcnt0]; simp
    · have := hI.cntBound i; simp [h]; omega
  · intro p hp
    obtain ⟨i, key, b, j, h1, h2, h3, h4, h5, h6, h7⟩ := hI.resStruct p hp
    refine ⟨i, key, b, j, h1, h2, by dsimp only; omega, h4, h5, h6, ?_⟩
    rw [hcnew i]
    have hne : s.cursor ≠ i := by omega
    simp [hne, h7]
  · intro i hmem
    have h := hI.errStruct i hmem
    rw [hcnew i]
    have hne : s.cursor ≠ i := by
      intro he; rw [← he] at h; omega
    simp [hne, h]
  · exact hI.errBeh
  · obtain ⟨m, hm, hd⟩ := hI.firstinv
    have hseq := firstInvSeq_append_zero s
      ({ s with cursor := s.cursor + 1,
                workers := s.workers.set w (.running s.cursor 0),
                invLog := s.invLog ++ [(s.cursor, 0, s.aborted)] } : St κ V)
      s.cursor s.aborted rfl
    rcases hd with h | ⟨h, hs⟩
    · refine ⟨m + 1, ?_, ?_⟩
      · rw [hseq, hm]
        have hmc : m = s.cursor := by omega
        rw [hmc, ← List.range_succ]
      · left
        change m + 1 = min (s.cursor + 1) c.n
        omega
    · rw [hstop] at hs; cases hs
  · have h := wsum_set_of_read (slackOf c.opts.retry) (.running s.cursor 0) hw
    simp only [slackOf] at h
    have hb := hI.logBound
    simp only [workerSlack] at hb ⊢
    have hmin : min (s.cursor + 1) c.n = min s.cursor c.n + 1 := by omega
    rw [hmin, Nat.mul_succ]
    simp only [List.length_append, List.length_cons, List.length_nil]
    omega
  · have hb := hI.curBound
    simp only [doneCount]
    change s.cursor + 1 ≤ _ + _
    omega

/-- Attempt `k` of entry `i` resolves: record the completion and return to
the worker loop. -/
theorem minv_R_ok {κ V : Type} (c : Ctx κ V) (s : St κ V) (w i k : Nat)
    (key : κ) (b : Nat → TaskOutcome V) (v : V)
    (hkeys : (c.entries.map Prod.fst).Nodup)
    (hI : MInv c s) (hw : s.workers[w]? = some (.running i k))
    (he : c.entries[i]? = some (key, b)) (hbk : b k = .ok v) :
    MInv c { s with resultEntries := s.resultEntries ++ [(key, v)],
                    succeeded := s.succeeded + 1,
                    workers := s.workers.set w .atLoop } := by
  have hWOK := hI.active w _ hw
  simp only [WOK] at hWOK
  obtain ⟨hcur, hk, herr, hcnt, key2, b2, he2, hprev, hmem⟩ := hWOK
  obtain ⟨hkeq, hbeq⟩ : key = key2 ∧ b = b2 := by
    rw [he] at he2
    simpa using he2
  subst hkeq
  subst hbeq
  refine
    { wlen := by simp [hI.wlen], cntS := by simp [hI.cntS],
      cntF := hI.cntF, errLen := hI.errLen, fe1 := hI.fe1, fe2 := hI.fe2,
      feStop := hI.feStop, stopSrc := hI.stopSrc,
      unclaimed := hI.unclaimed, cntBound := hI.cntBound,
      errStruct := hI.errStruct, errBeh := hI.errBeh, errNodup := hI.errNodup,
      firstinv := hI.firstinv,
      active := ?_, distinct := ?_, resStruct := ?_, resNodup := ?_,
      logBound := ?_, curBound := ?_ }
  · intro u st hu
    dsimp only at hu
    rcases read_set .atLoop hw u hu with ⟨_, rfl⟩ | ⟨hne, hu⟩
    · trivial
    · have hwok := hI.active u st hu
      cases st with
      | atLoop => trivial
      | done => trivial
      | running i2 k2 =>
        simp only [WOK] at hwok ⊢
        obtain ⟨h1, h2, h3, h4, key3, b3, he3, h5, h6⟩ := hwok
        refine ⟨h1, h2, h3, h4, key3, b3, he3, h5, ?_⟩
        have hii : i2 ≠ i := by
          intro heq
          exact hne (hI.distinct u w i2 ⟨_, hu, by simp [WStatus.activeIdx]⟩
            ⟨_, hw, by simp [WStatus.activeIdx, heq]⟩)
        have hkne : key3 ≠ key := fun hkk =>
          hii (keys_inj hkeys (hkk ▸ he3) he)
        simp only [List.map_append, List.mem_append]
        rintro (h | h)
        · exact h6 h
        · simp at h; exact hkne h
      | delaying i2 k2 =>
        simp only [WOK] at hwok ⊢
        obtain ⟨h1, h0, h2, h3, h4, key3, b3, he3, h5, h6⟩ := hwok
        refine ⟨h1, h0, h2, h3, h4, key3, b3, he3, h5, ?_⟩
        have hii : i2 ≠ i := by
          intro heq
          exact hne (hI.distinct u w i2 ⟨_, hu, by simp [WStatus.activeIdx]⟩
            ⟨_, hw, by simp [WStatus.activeIdx, heq]⟩)
        have hkne : key3 ≠ key := fun hkk =>
          hii (keys_inj hkeys (hkk ▸ he3) he)
        simp only [List.map_append, List.mem_append]
        rintro (h | h)
        · exact h6 h
        · simp at h; exact hkne h
  · intro w1 w2 i0 h1 h2
    obtain ⟨st1, hst1, hidx1⟩ := h1
    obtain ⟨st2, hst2, hidx2⟩ := h2
    dsimp only at hst1 hst2
    rcases read_set .atLoop hw w1 hst1 with ⟨_, rfl⟩ | ⟨_, hst1⟩
    · simp [WStatus.activeIdx] at hidx1
    rcases read_set .atLoop hw w2 hst2 with ⟨_, rfl⟩ | ⟨_, hst2⟩
    · simp [WStatus.activeIdx] at hidx2
    exact hI.distinct w1 w2 i0 ⟨st1, hst1, hidx1⟩ ⟨st2, hst2, hidx2⟩
  · intro p hp
    dsimp only at hp
    rcases List.mem_append.mp hp with hp | hp
    · obtain ⟨i2, key2, b2, j2, g1, g2, g3, g4, g5, g6, g7⟩ := hI.resStruct p hp
      exact ⟨i2, key2, b2, j2, g1, g2, g3, g4, g5, g6, g7⟩
    · simp only [List.mem_singleton] at hp
      subst hp
      exact ⟨i, key, b, k, he, rfl, hcur, hk, hbk, hprev, hcnt⟩
  · dsimp only
    rw [List.map_append]
    simp only [List.map_cons, List.map_nil]
    rw [List.nodup_append]
    exact ⟨hI.resNodup, List.nodup_singleton _,
      by simpa [List.disjoint_singleton] using hmem⟩
  · have h := wsum_set_of_read (slackOf c.opts.retry) .atLoop hw
    simp only [slackOf] at h
    have hb := hI.logBound
    simp only [workerSlack] at hb ⊢
    omega
  · have h := wsum_set_of_read doneBit .atLoop hw
    simp only [doneBit] at h
    have hb := hI.curBound
    simp only [doneCount] at hb ⊢
    omega

/-- Final attempt of entry `i` rejects and the failure is captured, without
the fail-fast capture (it is disabled or already taken). -/
theorem minv_R_final {κ V : Type} (c : Ctx κ V) (s : St κ V) (w i : Nat)
    (msg : String)
    (hI : MInv c s) (hw : s.workers[w]? = some (.running i c.opts.retry))
    (hberr : ∀ (key : κ) (b : Nat → TaskOutcome V),
      c.entries[i]? = some (key, b) → (b c.opts.retry).isErr)
    (hns : ¬ (¬ c.opts.ignoreErrors = true ∧ c.opts.throwOnFirstError = true ∧
      s.firstError = none)) :
    MInv c { s with errors := s.errors ++ [msg], failed := s.failed + 1,
                    errLog := s.errLog ++ [i],
                    workers := s.workers.set w .atLoop } := by
  have hWOK := hI.active w _ hw
  simp only [WOK] at hWOK
  obtain ⟨hcur, hk, herrmem, hcnt, key2, b2, he2, hprev, hmem⟩ := hWOK
  refine
    { wlen := by simp [hI.wlen], cntS := hI.cntS,
      cntF := by simp [hI.cntF], errLen := by simp [hI.errLen],
      fe1 := hI.fe1, fe2 := ?_,
      feStop := hI.feStop, stopSrc := hI.stopSrc,
      unclaimed := hI.unclaimed, cntBound := hI.cntBound,
      resStruct := hI.resStruct, resNodup := hI.resNodup,
      firstinv := hI.firstinv,
      active := ?_, distinct := ?_, errStruct := ?_, errBeh := ?_, errNodup := ?_,
      logBound := ?_, curBound := ?_ }
  · intro htofe hig
    have hfe : s.firstError ≠ none := by
      intro h
      exact hns ⟨by simp [hig], htofe, h⟩
    obtain ⟨e, he⟩ := Option.ne_none_iff_exists.mp hfe
    have h2 : some e = s.errors.head? := by rw [he]; exact hI.fe2 htofe hig
    dsimp only
    rw [← he]
    cases herrs : s.errors with
    | nil => rw [herrs] at h2; simp at h2
    | cons a t => rw [herrs] at h2; simpa using h2
  · intro u st hu
    dsimp only at hu
    rcases read_set .atLoop hw u hu with ⟨_, rfl⟩ | ⟨hne, hu⟩
    · trivial
    · have hwok := hI.active u st hu
      have hii : ∀ i2, st.activeIdx = some i2 → i2 ≠ i := by
        intro i2 hidx heq
        exact hne (hI.distinct u w i2 ⟨_, hu, hidx⟩
          ⟨_, hw, by simp [WStatus.activeIdx, heq]⟩)
      cases st with
      | atLoop => trivial
      | done => trivial
      | running i2 k2 =>
        have hii2 := hii i2 (by simp [WStatus.activeIdx])
        simp only [WOK] at hwok ⊢
        obtain ⟨h1, h2, h3, h4, rest⟩ := hwok
        refine ⟨h1, h2, ?_, h4, rest⟩
        simp only [List.mem_append, List.mem_singleton]
        rintro (h | h)
        · exact h3 h
        · exact hii2 h
      | delaying i2 k2 =>
        have hii2 := hii i2 (by simp [WStatus.activeIdx])
        simp only [WOK] at hwok ⊢
        obtain ⟨h1, h0, h2, h3, h4, rest⟩ := hwok
        refine ⟨h1, h0, h2, ?_, h4, rest⟩
        simp only [List.mem_append, List.mem_singleton]
        rintro (h | h)
        · exact h3 h
        · exact hii2 h
  · intro w1 w2 i0 h1 h2
    obtain ⟨st1, hst1, hidx1⟩ := h1
    obtain ⟨st2, hst2, hidx2⟩ := h2
    dsimp only at hst1 hst2
    rcases read_set .atLoop hw w1 hst1 with ⟨_, rfl⟩ | ⟨_, hst1⟩
    · simp [WStatus.activeIdx] at hidx1
    rcases read_set .atLoop hw w2 hst2 with ⟨_, rfl⟩ | ⟨_, hst2⟩
    · simp [WStatus.activeIdx] at hidx2
    exact hI.distinct w1 w2 i0 ⟨st1, hst1, hidx1⟩ ⟨st2, hst2, hidx2⟩
  · intro i0 hmem0
    dsimp only at hmem0 ⊢
    rcases List.mem_append.mp hmem0 with h | h
    · exact hI.errStruct i0 h
    · simp only [List.mem_singleton] at h
      subst h
      exact hcnt
  · intro i0 hmem0
    dsimp only at hmem0
    rcases List.mem_append.mp hmem0 with h | h
    · exact hI.errBeh i0 h
    · simp only [List.mem_singleton] at h
      subst h
      refine ⟨key2, b2, he2, ?_⟩
      intro j hj
      rcases Nat.lt_or_ge j c.opts.retry with hlt2 | hge2
      · exact hprev j hlt2
      · have hje : j = c.opts.retry := by omega
        subst hje
        exact hberr key2 b2 he2
  · dsimp only
    rw [List.nodup_append]
    exact ⟨hI.errNodup, List.nodup_singleton _,
      by simpa [List.disjoint_singleton] using herrmem⟩
  · have h := wsum_set_of_read (slackOf c.opts.retry) .atLoop hw
    simp only [slackOf] at h
    have hb := hI.logBound
    simp only [workerSlack] at hb ⊢
    omega
  · have h := wsum_set_of_read doneBit .atLoop hw
    simp only [doneBit] at h
    have hb := hI.curBound
    simp only [doneCount] at hb ⊢
    omega

/-- Final attempt of entry `i` rejects and fail-fast captures the error:
`firstError` is recorded and `stopped` is set. -/
theorem minv_R_finalSet {κ V : Type} (c : Ctx κ V) (s : St κ V) (w i : Nat)
    (msg : String)
    (hI : MInv c s) (hw : s.workers[w]? = some (.running i c.opts.retry))
    (hberr : ∀ (key : κ) (b : Nat → TaskOutcome V),
      c.entries[i]? = some (key, b) → (b c.opts.retry).isErr)
    (hig : c.opts.ignoreErrors = false) (htofe : c.opts.throwOnFirstError = true)
    (hfe : s.firstError = none) :
    MInv c { s with errors := s.errors ++ [msg], failed := s.failed + 1,
                    errLog := s.errLog ++ [i],
                    workers := s.workers.set w .atLoop,
                    firstError := some msg, stopped := true } := by
  have hWOK := hI.active w _ hw
  simp only [WOK] at hWOK
  obtain ⟨hcur, hk, herrmem, hcnt, key2, b2, he2, hprev, hmem⟩ := hWOK
  have herrnil : s.errors = [] := by
    have h2 := hI.fe2 htofe hig
    rw [hfe] at h2
    exact List.head?_eq_none_iff.mp h2.symm
  refine
    { wlen := by simp [hI.wlen], cntS := hI.cntS,
      cntF := by simp [hI.cntF], errLen := by simp [hI.errLen],
      fe1 := fun h => absurd ⟨htofe, hig⟩ h,
      fe2 := fun _ _ => by dsimp only; rw [herrnil]; rfl,
      feStop := fun _ => rfl,
      stopSrc := fun _ => .inr (.inr (by simp)),
      unclaimed := hI.unclaimed, cntBound := hI.cntBound,
      resStruct := hI.resStruct, resNodup := hI.resNodup,
      firstinv := ?_,
      active := ?_, distinct := ?_, errStruct := ?_, errBeh := ?_, errNodup := ?_,
      logBound := ?_, curBound := ?_ }
  · intro u st hu
    dsimp only at hu
    rcases read_set .atLoop hw u hu with ⟨_, rfl⟩ | ⟨hne, hu⟩
    · trivial
    · have hwok := hI.active u st hu
      have hii : ∀ i2, st.activeIdx = some i2 → i2 ≠ i := by
        intro i2 hidx heq
        exact hne (hI.distinct u w i2 ⟨_, hu, hidx⟩
          ⟨_, hw, by simp [WStatus.activeIdx, heq]⟩)
      cases st with
      | atLoop => trivial
      | done => trivial
      | running i2 k2 =>
        have hii2 := hii i2 (by simp [WStatus.activeIdx])
        simp only [WOK] at hwok ⊢
        obtain ⟨h1, h2, h3, h4, rest⟩ := hwok
        refine ⟨h1, h2, ?_, h4, rest⟩
        simp only [List.mem_append, List.mem_singleton]
        rintro (h | h)
        · exact h3 h
        · exact hii2 h
      | delaying i2 k2 =>
        have hii2 := hii i2 (by simp [WStatus.activeIdx])
        simp only [WOK] at hwok ⊢
        obtain ⟨h1, h0, h2, h3, h4, rest⟩ := hwok
        refine ⟨h1, h0, h2, ?_, h4, rest⟩
        simp only [List.mem_append, List.mem_singleton]
        rintro (h | h)
        · exact h3 h
        · exact hii2 h
  · intro w1 w2 i0 h1 h2
    obtain ⟨st1, hst1, hidx1⟩ := h1
    obtain ⟨st2, hst2, hidx2⟩ := h2
    dsimp only at hst1 hst2
    rcases read_set .atLoop hw w1 hst1 with ⟨_, rfl⟩ | ⟨_, hst1⟩
    · simp [WStatus.activeIdx] at hidx1
    rcases read_set .atLoop hw w2 hst2 with ⟨_, rfl⟩ | ⟨_, hst2⟩
    · simp [WStatus.activeIdx] at hidx2
    exact hI.distinct w1 w2 i0 ⟨st1, hst1, hidx1⟩ ⟨st2, hst2, hidx2⟩
  · intro i0 hmem0
    dsimp only at hmem0 ⊢
    rcases List.mem_append.mp hmem0 with h | h
    · exact hI.errStruct i0 h
    · simp only [List.mem_singleton] at h
      subst h
      exact hcnt
  · intro i0 hmem0
    dsimp only at hmem0
    rcases List.mem_append.mp hmem0 with h | h
    · exact hI.errBeh i0 h
    · simp only [List.mem_singleton] at h
      subst h
      refine ⟨key2, b2, he2, ?_⟩
      intro j hj
      rcases Nat.lt_or_ge j c.opts.retry with hlt2 | hge2
      · exact hprev j hlt2
      · have hje : j = c.opts.retry := by omega
        subst hje
        exact hberr key2 b2 he2
  · dsimp only
    rw [List.nodup_append]
    exact ⟨hI.errNodup, List.nodup_singleton _,
      by simpa [List.disjoint_singleton] using herrmem⟩
  · obtain ⟨m, hm, hd⟩ := hI.firstinv
    exact ⟨m, hm, hd.imp id (fun h => ⟨h.1, rfl⟩)⟩
  · have h := wsum_set_of_read (slackOf c.opts.retry) .atLoop hw
    simp only [slackOf] at h
    have hb := hI.logBound
    simp only [workerSlack] at hb ⊢
    omega
  · have h := wsum_set_of_read doneBit .atLoop hw
    simp only [doneBit] at h
    have hb := hI.curBound
    simp only [doneCount] at hb ⊢
    omega

/-- Non-final attempt of entry `i` rejects with a positive retry delay:
the worker suspends in `sleep(retryDelay, signal)` before attempt `k+1`. -/
theorem minv_R_delay {κ V : Type} (c : Ctx κ V) (s : St κ V) (w i k : Nat)
    (key : κ) (b : Nat → TaskOutcome V) (e : Thrown)
    (hI : MInv c s) (hw : s.workers[w]? = some (.running i k))
    (he : c.entries[i]? = some (key, b)) (hbk : b k = .err e)
    (hk : k ≠ c.opts.retry) :
    MInv c { s with workers := s.workers.set w (.delaying i (k + 1)) } := by
  have hWOK := hI.active w _ hw
  simp only [WOK] at hWOK
  obtain ⟨hcur, hkle, herrmem, hcnt, key2, b2, he2, hprev, hmem⟩ := hWOK
  obtain ⟨hkeq, hbeq⟩ : key = key2 ∧ b = b2 := by
    rw [he] at he2
    simpa using he2
  subst hkeq
  subst hbeq
  refine
    { wlen := by simp [hI.wlen], cntS := hI.cntS, cntF := hI.cntF,
      errLen := hI.errLen, fe1 := hI.fe1, fe2 := hI.fe2, feStop := hI.feStop,
      stopSrc := hI.stopSrc, unclaimed := hI.unclaimed,
      cntBound := hI.cntBound, resStruct := hI.resStruct,
      resNodup := hI.resNodup, errStruct := hI.errStruct, errBeh := hI.errBeh,
      errNodup := hI.errNodup, firstinv := hI.firstinv,
      active := ?_, distinct := ?_, logBound := ?_, curBound := ?_ }
  · intro u st hu
    dsimp only at hu
    rcases read_set (.delaying i (k + 1)) hw u hu with ⟨_, rfl⟩ | ⟨_, hu⟩
    · simp only [WOK]
      refine ⟨hcur, by omega, by omega, herrmem, hcnt, key, b, he, ?_, hmem⟩
      intro j hj
      rcases Nat.lt_succ_iff_lt_or_eq.mp hj with h | h
      · exact hprev j h
      · subst h; rw [hbk]; trivial
    · exact WOK_shift_inv c st (hI.active u st hu) (Nat.le_refl _) rfl rfl rfl
  · intro w1 w2 i0 h1 h2
    obtain ⟨st1, hst1, hidx1⟩ := h1
    obtain ⟨st2, hst2, hidx2⟩ := h2
    dsimp only at hst1 hst2
    have hold : ∀ u st0, (s.workers.set w (.delaying i (k + 1)))[u]? = some st0 →
        st0.activeIdx = some i0 → holds s u i0 := by
      intro u st0 hst0 hidx0
      rcases read_set (.delaying i (k + 1)) hw u hst0 with ⟨he0, rfl⟩ | ⟨_, hst0⟩
      · subst he0
        simp only [WStatus.activeIdx, Option.some.injEq] at hidx0
        exact ⟨_, hw, by simp [WStatus.activeIdx, hidx0]⟩
      · exact ⟨st0, hst0, hidx0⟩
    exact hI.distinct w1 w2 i0 (hold w1 st1 hst1 hidx1) (hold w2 st2 hst2 hidx2)
  · have h := wsum_set_of_read (slackOf c.opts.retry) (.delaying i (k + 1)) hw
    simp only [slackOf] at h
    have hb := hI.logBound
    simp only [workerSlack] at hb ⊢
    omega
  · have h := wsum_set_of_read doneBit (.delaying i (k + 1)) hw
    simp only [doneBit] at h
    have hb := hI.curBound
    simp only [doneCount] at hb ⊢
    omega

/-- Non-final attempt of entry `i` rejects with no retry delay and the run
not stopped: the next attempt is invoked synchronously. -/
theorem minv_R_retry0 {κ V : Type} (c : Ctx κ V) (s : St κ V) (w i k : Nat)
    (key : κ) (b : Nat → TaskOutcome V) (e : Thrown)
    (hI : MInv c s) (hw : s.workers[w]? = some (.running i k))
    (he : c.entries[i]? = some (key, b)) (hbk : b k = .err e)
    (hk : k ≠ c.opts.retry) :
    MInv c { s with workers := s.workers.set w (.running i (k + 1)),
                    invLog := s.invLog ++ [(i, k + 1, s.aborted)] } := by
  have hWOK := hI.active w _ hw
  simp only [WOK] at hWOK
  obtain ⟨hcur, hkle, herrmem, hcnt, key2, b2, he2, hprev, hmem⟩ := hWOK
  obtain ⟨hkeq, hbeq⟩ : key = key2 ∧ b = b2 := by
    rw [he] at he2
    simpa using he2
  subst hkeq
  subst hbeq
  have hcnew : ∀ i0, countInv
      ({ s with workers := s.workers.set w (.running i (k + 1)),
                invLog := s.invLog ++ [(i, k + 1, s.aborted)] } : St κ V) i0 =
      countInv s i0 + (if i = i0 then 1 else 0) :=
    fun i0 => countInv_append s _ i (k + 1) s.aborted i0 rfl
  have hothers : ∀ u st0, u ≠ w → s.workers[u]? = some st0 →
      ∀ i2, st0.activeIdx = some i2 → i2 ≠ i := by
    intro u st0 hne hst0 i2 hidx heq
    exact hne (hI.distinct u w i2 ⟨_, hst0, hidx⟩
      ⟨_, hw, by simp [WStatus.activeIdx, heq]⟩)
  refine
    { wlen := by simp [hI.wlen], cntS := hI.cntS, cntF := hI.cntF,
      errLen := hI.errLen, fe1 := hI.fe1, fe2 := hI.fe2, feStop := hI.feStop,
      stopSrc := hI.stopSrc,
      resNodup := hI.resNodup,
      errNodup := hI.errNodup,
      active := ?_, distinct := ?_, unclaimed := ?_, cntBound := ?_,
      resStruct := ?_, errStruct := ?_, errBeh := ?_, firstinv := ?_,
      logBound := ?_, curBound := ?_ }
  · intro u st hu
    dsimp only at hu
    rcases read_set (.running i (k + 1)) hw u hu with ⟨_, rfl⟩ | ⟨hne, hu⟩
    · simp only [WOK]
      refine ⟨hcur, by omega, herrmem, ?_, key, b, he, ?_, hmem⟩
      · rw [hcnew i]; simp [hcnt]
      · intro j hj
        rcases Nat.lt_succ_iff_lt_or_eq.mp hj with h | h
        · exact hprev j h
        · subst h; rw [hbk]; trivial
    · refine WOK_shift c st (hI.active u st hu) (Nat.le_refl _) rfl rfl ?_
      intro i2 hidx
      rw [hcnew i2]
      have : i ≠ i2 := fun heq => hothers u st hne hu i2 hidx heq.symm
      simp [this]
  · intro w1 w2 i0 h1 h2
    obtain ⟨st1, hst1, hidx1⟩ := h1
    obtain ⟨st2, hst2, hidx2⟩ := h2
    dsimp only at hst1 hst2
    have hold : ∀ u st0, (s.workers.set w (.running i (k + 1)))[u]? = some st0 →
        st0.activeIdx = some i0 → holds s u i0 := by
      intro u st0 hst0 hidx0
      rcases read_set (.running i (k + 1)) hw u hst0 with ⟨he0, rfl⟩ | ⟨_, hst0⟩
      · subst he0
        simp only [WStatus.activeIdx, Option.some.injEq] at hidx0
        exact ⟨_, hw, by simp [WStatus.activeIdx, hidx0]⟩
      · exact ⟨st0, hst0, hidx0⟩
    exact hI.distinct w1 w2 i0 (hold w1 st1 hst1 hidx1) (hold w2 st2 hst2 hidx2)
  · intro i0 hi0
    dsimp only at hi0
    rw [hcnew i0]
    have : i ≠ i0 := by omega
    rw [hI.unclaimed i0 hi0]
    simp [this]
  · intro i0
    rw [hcnew i0]
    by_cases h : i = i0
    · subst h; rw [hcnt]; simp; omega
    · have := hI.cntBound i0; simp [h]; omega
  · intro p hp
    obtain ⟨i2, key2, b2, j2, g1, g2, g3, g4, g5, g6, g7⟩ := hI.resStruct p hp
    refine ⟨i2, key2, b2, j2, g1, g2, g3, g4, g5, g6, ?_⟩
    rw [hcnew i2]
    have : i ≠ i2 := by
      intro heq
      subst heq
      have hkb : key = key2 ∧ b = b2 := by
        rw [he] at g1
        simpa using g1
      have hpmem : p.1 ∈ List.map Prod.fst s.resultEntries :=
        List.mem_map_of_mem Prod.fst hp
      rw [← g2] at hpmem
      rw [← hkb.1] at hpmem
      exact hmem hpmem
    simp [this, g7]
  · intro i0 hmem0
    have h := hI.errStruct i0 hmem0
    rw [hcnew i0]
    have : i ≠ i0 := fun heq => herrmem (heq ▸ hmem0)
    simp [this, h]
  · exact hI.errBeh
  · obtain ⟨m, hm, hd⟩ := hI.firstinv
    refine ⟨m, ?_, hd⟩
    rw [firstInvSeq_append_pos s _ i (k + 1) s.aborted (by omega) rfl]
    exact hm
  · have h := wsum_set_of_read (slackOf c.opts.retry) (.running i (k + 1)) hw
    simp only [slackOf] at h
    have hb := hI.logBound
    simp only [workerSlack] at hb ⊢
    simp only [List.length_append, List.length_cons, List.length_nil]
    omega
  · have h := wsum_set_of_read doneBit (.running i (k + 1)) hw
    simp only [doneBit] at h
    have hb := hI.curBound
    simp only [doneCount] at hb ⊢
    omega

/-- A worker inside `runTask` returns to the loop head without recording
anything (the guard re-check sees `stopped`). -/
theorem minv_setAtLoop {κ V : Type} (c : Ctx κ V) (s : St κ V) (w : Nat)
    (st0 : WStatus) (hI : MInv c s) (hw : s.workers[w]? = some st0)
    (hnd : st0.isDone = false) :
    MInv c { s with workers := s.workers.set w .atLoop } := by
  refine
    { wlen := by simp [hI.wlen], cntS := hI.cntS, cntF := hI.cntF,
      errLen := hI.errLen, fe1 := hI.fe1, fe2 := hI.fe2, feStop := hI.feStop,
      stopSrc := hI.stopSrc, unclaimed := hI.unclaimed,
      cntBound := hI.cntBound, resStruct := hI.resStruct,
      resNodup := hI.resNodup, errStruct := hI.errStruct, errBeh := hI.errBeh,
      errNodup := hI.errNodup, firstinv := hI.firstinv,
      active := ?_, distinct := ?_, logBound := ?_, curBound := ?_ }
  · intro u st hu
    dsimp only at hu
    rcases read_set .atLoop hw u hu with ⟨_, rfl⟩ | ⟨_, hu⟩
    · trivial
    · exact WOK_shift_inv c st (hI.active u st hu) (Nat.le_refl _) rfl rfl rfl
  · intro w1 w2 i0 h1 h2
    obtain ⟨st1, hst1, hidx1⟩ := h1
    obtain ⟨st2, hst2, hidx2⟩ := h2
    dsimp only at hst1 hst2
    rcases read_set .atLoop hw w1 hst1 with ⟨_, rfl⟩ | ⟨_, hst1⟩
    · simp [WStatus.activeIdx] at hidx1
    rcases read_set .atLoop hw w2 hst2 with ⟨_, rfl⟩ | ⟨_, hst2⟩
    · simp [WStatus.activeIdx] at hidx2
    exact hI.distinct w1 w2 i0 ⟨st1, hst1, hidx1⟩ ⟨st2, hst2, hidx2⟩
  · have h := wsum_set_of_read (slackOf c.opts.retry) .atLoop hw
    simp only [slackOf] at h
    have hb := hI.logBound
    simp only [workerSlack] at hb ⊢
    omega
  · have h := wsum_set_of_read doneBit .atLoop hw
    have hb := hI.curBound
    simp only [doneCount] at hb ⊢
    have hz : doneBit st0 = 0 := by
      cases st0 <;> simp only [doneBit] <;> simp [WStatus.isDone] at hnd
    have hz2 : doneBit .atLoop = 0 := rfl
    rw [hz, hz2] at h
    omega

/-- The inter-retry `sleep` resolves with the guard still true: the next
attempt is invoked. -/
theorem minv_D_go {κ V : Type} (c : Ctx κ V) (s : St κ V) (w i k : Nat)
    (hI : MInv c s) (hw : s.workers[w]? = some (.delaying i k)) :
    MInv c { s with workers := s.workers.set w (.running i k),
                    invLog := s.invLog ++ [(i, k, s.aborted)] } := by
  have hWOK := hI.active w _ hw
  simp only [WOK] at hWOK
  obtain ⟨hcur, hk1, hkle, herrmem, hcnt, key, b, he, hprev, hmem⟩ := hWOK
  have hcnew : ∀ i0, countInv
      ({ s with workers := s.workers.set w (.running i k),
                invLog := s.invLog ++ [(i, k, s.aborted)] } : St κ V) i0 =
      countInv s i0 + (if i = i0 then 1 else 0) :=
    fun i0 => countInv_append s _ i k s.aborted i0 rfl
  have hothers : ∀ u st0, u ≠ w → s.workers[u]? = some st0 →
      ∀ i2, st0.activeIdx = some i2 → i2 ≠ i := by
    intro u st0 hne hst0 i2 hidx heq
    exact hne (hI.distinct u w i2 ⟨_, hst0, hidx⟩
      ⟨_, hw, by simp [WStatus.activeIdx, heq]⟩)
  refine
    { wlen := by simp [hI.wlen], cntS := hI.cntS, cntF := hI.cntF,
      errLen := hI.errLen, fe1 := hI.fe1, fe2 := hI.fe2, feStop := hI.feStop,
      stopSrc := hI.stopSrc,
      resNodup := hI.resNodup,
      errNodup := hI.errNodup,
      active := ?_, distinct := ?_, unclaimed := ?_, cntBound := ?_,
      resStruct := ?_, errStruct := ?_, errBeh := ?_, firstinv := ?_,
      logBound := ?_, curBound := ?_ }
  · intro u st hu
    dsimp only at hu
    rcases read_set (.running i k) hw u hu with ⟨_, rfl⟩ | ⟨hne, hu⟩
    · simp only [WOK]
      refine ⟨hcur, hkle, herrmem, ?_, key, b, he, hprev, hmem⟩
      rw [hcnew i]; simp [hcnt]
    · refine WOK_shift c st (hI.active u st hu) (Nat.le_refl _) rfl rfl ?_
      intro i2 hidx
      rw [hcnew i2]
      have : i ≠ i2 := fun heq => hothers u st hne hu i2 hidx heq.symm
      simp [this]
  · intro w1 w2 i0 h1 h2
    obtain ⟨st1, hst1, hidx1⟩ := h1
    obtain ⟨st2, hst2, hidx2⟩ := h2
    dsimp only at hst1 hst2
    have hold : ∀ u st0, (s.workers.set w (.running i k))[u]? = some st0 →
        st0.activeIdx = some i0 → holds s u i0 := by
      intro u st0 hst0 hidx0
      rcases read_set (.running i k) hw u hst0 with ⟨he0, rfl⟩ | ⟨_, hst0⟩
      · subst he0
        simp only [WStatus.activeIdx, Option.some.injEq] at hidx0
        exact ⟨_, hw, by simp [WStatus.activeIdx, hidx0]⟩
      · exact ⟨st0, hst0, hidx0⟩
    exact hI.distinct w1 w2 i0 (hold w1 st1 hst1 hidx1) (hold w2 st2 hst2 hidx2)
  · intro i0 hi0
    dsimp only at hi0
    rw [hcnew i0]
    have : i ≠ i0 := by omega
    rw [hI.unclaimed i0 hi0]
    simp [this]
  · intro i0
    rw [hcnew i0]
    by_cases h : i = i0
    · subst h; rw [hcnt]; simp; omega
    · have := hI.cntBound i0; simp [h]; omega
  · intro p hp
    obtain ⟨i2, key2, b2, j2, g1, g2, g3, g4, g5, g6, g7⟩ := hI.resStruct p hp
    refine ⟨i2, key2, b2, j2, g1, g2, g3, g4, g5, g6, ?_⟩
    rw [hcnew i2]
    have : i ≠ i2 := by
      intro heq
      subst heq
      have hkb : key = key2 ∧ b = b2 := by
        rw [he] at g1
        simpa using g1
      have hpmem : p.1 ∈ List.map Prod.fst s.resultEntries :=
        List.mem_map_of_mem Prod.fst hp
      rw [← g2] at hpmem
      rw [← hkb.1] at hpmem
      exact hmem hpmem
    simp [this, g7]
  · intro i0 hmem0
    have h := hI.errStruct i0 hmem0
    rw [hcnew i0]
    have : i ≠ i0 := fun heq => herrmem (heq ▸ hmem0)
    simp [this, h]
  · exact hI.errBeh
  · obtain ⟨m, hm, hd⟩ := hI.firstinv
    refine ⟨m, ?_, hd⟩
    rw [firstInvSeq_append_pos s _ i k s.aborted (by omega) rfl]
    exact hm
  · have h := wsum_set_of_read (slackOf c.opts.retry) (.running i k) hw
    simp only [slackOf] at h
    have hb := hI.logBound
    simp only [workerSlack] at hb ⊢
    simp only [List.length_append, List.length_cons, List.length_nil]
    omega
  · have h := wsum_set_of_read doneBit (.running i k) hw
    simp only [doneBit] at h
    have hb := hI.curBound
    simp only [doneCount] at hb ⊢
    omega

/-- The external abort signal fires. -/
theorem minv_abort {κ V : Type} (c : Ctx κ V) (s : St κ V) (hI : MInv c s) :
    MInv c { s with aborted := true } :=
  { wlen := hI.wlen, cntS := hI.cntS, cntF := hI.cntF, errLen := hI.errLen,
    fe1 := hI.fe1, fe2 := hI.fe2, feStop := hI.feStop,
    stopSrc := fun h => (hI.stopSrc h).imp (fun _ => rfl) id,
    active := hI.active, distinct := hI.distinct,
    unclaimed := hI.unclaimed, cntBound := hI.cntBound,
    resStruct := hI.resStruct, resNodup := hI.resNodup,
    errStruct := hI.errStruct, errBeh := hI.errBeh, errNodup := hI.errNodup,
    firstinv := hI.firstinv, logBound := hI.logBound,
    curBound := hI.curBound }

/-- The `sleep(timeout, signal)` promise of the timeout race resolves
while the pool is still pending: `stopped` is set and the run will reject
with the timeout error. -/
theorem minv_timer {κ V : Type} (c : Ctx κ V) (s : St κ V) (hI : MInv c s) :
    MInv c { s with stopped := true, timedOut := true } :=
  { wlen := hI.wlen, cntS := hI.cntS, cntF := hI.cntF, errLen := hI.errLen,
    fe1 := hI.fe1, fe2 := hI.fe2, feStop := fun _ => rfl,
    stopSrc := fun _ => .inr (.inl rfl),
    active := hI.active, distinct := hI.distinct,
    unclaimed := hI.unclaimed, cntBound := hI.cntBound,
    resStruct := hI.resStruct, resNodup := hI.resNodup,
    errStruct := hI.errStruct, errBeh := hI.errBeh, errNodup := hI.errNodup,
    firstinv := by
      obtain ⟨m, hm, hd⟩ := hI.firstinv
      exact ⟨m, hm, hd.imp id (fun h => ⟨h.1, rfl⟩)⟩,
    logBound := hI.logBound, curBound := hI.curBound }

/-- One scheduler step preserves the main invariant. -/
theorem minv_step {κ V : Type} (c : Ctx κ V) (s : St κ V) (e : Ev)
    (hkeys : (c.entries.map Prod.fst).Nodup) (hI : MInv c s) :
    MInv c (stepP c s e) := by
  cases e with
  | abortFire =>
    simp only [stepP]
    split
    · exact minv_abort c s hI
    · exact hI
  | timerFire =>
    simp only [stepP]
    split
    · exact hI
    · split
      · exact hI
      · exact minv_timer c s hI
  | work w =>
    simp only [stepP]
    split
    · exact hI
    · exact hI
    · rename_i hst
      unfold loopStep
      split_ifs with h1 h2 h3
      · exact minv_L_stop c s w hI hst
      · exact minv_L_past c s w hI hst (by omega)
      · exact minv_L_abort c s w hI hst (by omega) (by simpa using h1) h3
      · exact minv_L_claim c s w hkeys hI hst (by omega) (by simpa using h1)
          (by simpa using h3)
    · rename_i i k hst
      unfold resolveStep
      split
      · exact hI
      · rename_i key b hep
        split
        · rename_i v hbk
          exact minv_R_ok c s w i k key b v hkeys hI hst hep hbk
        · rename_i e2 hbk
          split_ifs with hkr hset hd hstop
          · subst hkr
            exact minv_R_finalSet c s w i (normalizeErr e2) hI hst
              (fun key3 b3 he3 => by
                rw [hep] at he3
                obtain ⟨hk3, hb3⟩ : key = key3 ∧ b = b3 := by simpa using he3
                rw [← hb3, hbk]; trivial)
              (by simpa using hset.1) hset.2.1 hset.2.2
          · subst hkr
            exact minv_R_final c s w i (normalizeErr e2) hI hst
              (fun key3 b3 he3 => by
                rw [hep] at he3
                obtain ⟨hk3, hb3⟩ : key = key3 ∧ b = b3 := by simpa using he3
                rw [← hb3, hbk]; trivial)
              hset
          · exact minv_R_delay c s w i k key b e2 hI hst hep hbk hkr
          · exact minv_setAtLoop c s w _ hI hst rfl
          · exact minv_R_retry0 c s w i k key b e2 hI hst hep hbk hkr
    · rename_i i k hst
      unfold delayResume
      split_ifs with h1
      · exact minv_D_go c s w i k hI hst
      · exact minv_setAtLoop c s w _ hI hst rfl

/-- The fresh run state satisfies the main invariant. -/
theorem minv_init {κ V : Type} (c : Ctx κ V) : MInv c (initSt c) := by
  have hrep : ∀ (w : Nat) (st : WStatus),
      (List.replicate c.workerCount WStatus.atLoop)[w]? = some st →
      st = .atLoop := by
    intro w st h
    rcases List.getElem?_eq_some.mp h with ⟨hlt, he⟩
    rw [List.getElem_replicate] at he
    exact he.symm
  refine
    { wlen := by simp [initSt], cntS := rfl, cntF := rfl, errLen := rfl,
      fe1 := fun _ => rfl, fe2 := fun _ _ => rfl,
      feStop := by simp [initSt],
      stopSrc := by simp [initSt],
      active := ?_, distinct := ?_,
      unclaimed := fun i _ => rfl,
      cntBound := fun i => by simp [countInv, initSt],
      resStruct := by simp [initSt],
      resNodup := List.nodup_nil,
      errStruct := by simp [initSt],
      errBeh := by simp [initSt],
      errNodup := List.nodup_nil,
      firstinv := ⟨0, rfl, .inl (by simp [initSt])⟩,
      logBound := ?_, curBound := by simp [initSt, doneCount] }
  · intro w st h
    rw [hrep w st h]
    trivial
  · intro w1 w2 i h1 h2
    obtain ⟨st1, hst1, hidx1⟩ := h1
    rw [hrep w1 st1 hst1] at hidx1
    simp [WStatus.activeIdx] at hidx1
  · simp only [initSt, workerSlack, wsum, List.map_replicate, List.sum_replicate,
      slackOf, smul_eq_mul]
    simp

/-- Flags and the cursor move only one way, and logs only grow. -/
theorem step_mono {κ V : Type} (c : Ctx κ V) (s : St κ V) (e : Ev) :
    (s.stopped = true → (stepP c s e).stopped = true) ∧
    (s.aborted = true → (stepP c s e).aborted = true) ∧
    (s.timedOut = true → (stepP c s e).timedOut = true) ∧
    (s.firstError.isSome = true → (stepP c s e).firstError.isSome = true) ∧
    s.cursor ≤ (stepP c s e).cursor := by
  cases e with
  | abortFire =>
    simp only [stepP]
    split <;> simp
  | timerFire =>
    simp only [stepP]
    split
    · simp
    · split <;> simp
  | work w =>
    simp only [stepP]
    split
    · simp
    · simp
    · unfold loopStep
      split_ifs <;> simp_all <;> omega
    · unfold resolveStep
      split
      · simp
      · split
        · simp
        · split_ifs <;> simp_all
    · unfold delayResume
      split_ifs <;> simp

/-- Once `stopped` is set, no further entry is claimed and no further
thunk invocation happens, for the rest of the run. -/
theorem stopped_frozen {κ V : Type} (c : Ctx κ V) (s : St κ V) (e : Ev)
    (hstop : s.stopped = true) :
    (stepP c s e).stopped = true ∧ (stepP c s e).cursor = s.cursor ∧
    (stepP c s e).invLog = s.invLog := by
  cases e with
  | abortFire =>
    simp only [stepP]
    split <;> simp [hstop]
  | timerFire =>
    simp only [stepP]
    split
    · simp [hstop]
    · split <;> simp [hstop]
  | work w =>
    simp only [stepP]
    split
    · simp [hstop]
    · simp [hstop]
    · unfold loopStep
      rw [if_pos hstop]
      simp [hstop]
    · unfold resolveStep
      split
      · simp [hstop]
      · split
        · simp [hstop]
        · split_ifs with hkr hset hd
          · simp [hstop]
          · simp [hstop]
          · simp [hstop]
          · simp [hstop]
    · unfold delayResume
      split_ifs with h1
      · rw [hstop] at h1; simp at h1
      · simp [hstop]

/-- If an entry has no holder after a pool update that did not silently
drop that entry's holder, it had none before. -/
theorem noActiveOn_rev {κ V : Type} {s s' : St κ V} {w : Nat} {st0 x : WStatus}
    (hw : s.workers[w]? = some st0) (hset : s'.workers = s.workers.set w x)
    (i0 : Nat) (hi0 : st0.activeIdx ≠ some i0) (h : noActiveOn s' i0) :
    noActiveOn s i0 := by
  intro u hu
  obtain ⟨st, hst, hidx⟩ := hu
  have hne : u ≠ w := by
    rintro rfl
    rw [hw] at hst
    cases hst
    exact hi0 hidx
  refine h u ⟨st, ?_, hidx⟩
  rw [hset, read_set_other x hne]
  exact hst

/-- The updated worker holds its new entry. -/
theorem holds_self {κ V : Type} {s s' : St κ V} {w : Nat} {x : WStatus}
    (hset : s'.workers = s.workers.set w x) (hlt : w < s.workers.length)
    {i : Nat} (hidx : x.activeIdx = some i) : holds s' w i := by
  refine ⟨x, ?_, hidx⟩
  rw [hset]
  exact getElem?_set_self _ _ _ hlt


/-- Members of an updated pool that are `done` were already in the pool,
when the new status is not `done`. -/
theorem mem_set_done {κ V : Type} {s : St κ V} {w : Nat} {x : WStatus}
    (hx : x.isDone = false) : ∀ st, st ∈ s.workers.set w x →
      st.isDone = true → st ∈ s.workers := by
  intro st hst hdn
  rcases List.mem_or_eq_of_mem_set hst with h | h
  · exact h
  · rw [h] at hdn; rw [hdn] at hx; cases hx

/-- Done workers in an updated pool force the cursor past the entries,
when the stepping worker's new status is not `done`. -/
theorem doneCur_set {κ V : Type} {c : Ctx κ V} {s : St κ V} {w : Nat}
    {x : WStatus} (hns : NSInv c s)
    (h : ∃ st ∈ s.workers.set w x, st = WStatus.done)
    (hx : x.isDone = false) : c.n ≤ s.cursor := by
  obtain ⟨st, hst, rfl⟩ := h
  exact hns.doneCur ⟨.done, mem_set_done hx _ hst rfl, rfl⟩

/-- Helper for `ns_step`: the no-stop accounting transfers across a step
of worker `w` from old status `st0` to new status `x` that claims
`dcur` new entries (0 or 1), completes `dsucc + dfail` entries and leaves
the rest of the state components as described. -/
theorem ns_step {κ V : Type} (c : Ctx κ V) (s : St κ V) (e : Ev)
    (hI : MInv c s) (hns : NSInv c s) (hstop : s.stopped = false)
    (hstop' : (stepP c s e).stopped = false) : NSInv c (stepP c s e) := by
  cases e with
  | abortFire =>
    simp only [stepP]
    split
    · exact ⟨hns.core, hns.doneCur, hns.completedFull⟩
    · exact hns
  | timerFire =>
    simp only [stepP] at hstop' ⊢
    rcases ht : c.opts.timeout with _ | t
    · simp only [ht] at hstop' ⊢
      exact hns
    · simp only [ht] at hstop' ⊢
      by_cases hc2 : s.timedOut = true ∨ finishedSt s = true
      · rw [if_pos hc2]
        exact hns
      · rw [if_neg hc2] at hstop'
        simp at hstop'
  | work w =>
    rcases hst : s.workers[w]? with _ | st
    · simp only [stepP, hst]
      exact hns
    · cases st with
      | done =>
        simp only [stepP, hst]
        exact hns
      | atLoop =>
        have hlt : w < s.workers.length := (List.getElem?_eq_some.mp hst).1
        simp only [stepP, hst] at hstop' ⊢
        unfold loopStep at hstop' ⊢
        rw [if_neg (by simp [hstop])] at hstop' ⊢
        by_cases h2 : s.cursor ≥ c.n
        · rw [if_pos h2]
          refine ⟨?_, fun _ => by change c.n ≤ s.cursor + 1; omega, ?_⟩
          · have ha := wsum_set_of_read activeBit .done hst
            have hz : activeBit .done = 0 := rfl
            have hz2 : activeBit .atLoop = 0 := rfl
            rw [hz, hz2] at ha
            have hc := hns.core
            simp only [activeCount] at hc ⊢
            change _ + _ + wsum activeBit (s.workers.set w .done) =
              min (s.cursor + 1) c.n
            omega
          · intro i0 hi0 hna
            have hi0c : i0 < min (s.cursor + 1) c.n := hi0
            have hi0' : i0 < min s.cursor c.n := by omega
            have hna' : noActiveOn s i0 :=
              noActiveOn_rev hst rfl i0 (by simp [WStatus.activeIdx]) hna
            exact hns.completedFull i0 hi0' hna'
        · rw [if_neg h2] at hstop' ⊢
          by_cases h3 : s.aborted = true
          · exfalso
            rw [if_pos h3] at hstop'
            simp at hstop'
          · rw [if_neg h3]
            refine ⟨?_, ?_, ?_⟩
            · have ha := wsum_set_of_read activeBit (.running s.cursor 0) hst
              have hz : activeBit (.running s.cursor 0) = 1 := rfl
              have hz2 : activeBit .atLoop = 0 := rfl
              rw [hz, hz2] at ha
              have hc := hns.core
              simp only [activeCount] at hc ⊢
              change _ + _ + wsum activeBit
                (s.workers.set w (.running s.cursor 0)) = min (s.cursor + 1) c.n
              omega
            · intro hdone
              have hd2 : ∃ st ∈ s.workers.set w (.running s.cursor 0),
                  st = WStatus.done := hdone
              have := doneCur_set hns hd2 rfl
              change c.n ≤ s.cursor + 1
              omega
            · intro i0 hi0 hna
              have hi0c : i0 < min (s.cursor + 1) c.n := hi0
              by_cases hieq : i0 = s.cursor
              · exfalso
                exact hna w
                  (holds_self rfl hlt (by simp [WStatus.activeIdx, hieq]))
              · have hmn : min (s.cursor + 1) c.n ≤ min s.cursor c.n + 1 := by
                  omega
                have hi0' : i0 < min s.cursor c.n := by omega
                have hna' : noActiveOn s i0 :=
                  noActiveOn_rev hst rfl i0 (by simp [WStatus.activeIdx]) hna
                exact hns.completedFull i0 hi0' hna'
      | running i k =>
        have hlt : w < s.workers.length := (List.getElem?_eq_some.mp hst).1
        simp only [stepP, hst] at hstop' ⊢
        unfold resolveStep at hstop' ⊢
        rcases hep : c.entries[i]? with _ | ⟨key, b⟩
        · simp only [hep] at hstop'
          try simp only [hep]
          exact hns
        · simp only [hep] at hstop'
          try simp only [hep]
          rcases hbk : b k with v | e2
          · try simp only [hbk]
            refine ⟨?_, ?_, ?_⟩
            · have ha := wsum_set_of_read activeBit .atLoop hst
              have hz : activeBit .atLoop = 0 := rfl
              have hz2 : activeBit (.running i k) = 1 := rfl
              rw [hz, hz2] at ha
              have hc := hns.core
              simp only [activeCount] at hc ⊢
              change _ + _ + wsum activeBit (s.workers.set w .atLoop) =
                min s.cursor c.n
              omega
            · intro hdone
              have hd2 : ∃ st ∈ s.workers.set w .atLoop,
                  st = WStatus.done := hdone
              have hfin := doneCur_set hns hd2 rfl
              exact hfin
            · intro i0 hi0 hna
              have hi0c : i0 < min s.cursor c.n := hi0
              by_cases hieq : i0 = i
              · subst hieq
                left
                exact ⟨key, b, hep, by simp⟩
              · have hna' : noActiveOn s i0 :=
                  noActiveOn_rev hst rfl i0
                    (by simp [WStatus.activeIdx]
                        exact fun h => hieq h.symm) hna
                rcases hns.completedFull i0 hi0c hna' with ⟨k3, b3, g1, g2⟩ | h
                · exact .inl ⟨k3, b3, g1, by simp [g2]⟩
                · exact .inr h
          · simp only [hbk] at hstop'
            try simp only [hbk]
            by_cases hkr : k = c.opts.retry
            · rw [if_pos hkr] at hstop' ⊢
              by_cases hset : ¬ c.opts.ignoreErrors = true ∧
                  c.opts.throwOnFirstError = true ∧ s.firstError = none
              · exfalso
                rw [if_pos hset] at hstop'
                simp at hstop'
              · rw [if_neg hset]
                refine ⟨?_, ?_, ?_⟩
                · have ha := wsum_set_of_read activeBit .atLoop hst
                  have hz : activeBit .atLoop = 0 := rfl
                  have hz2 : activeBit (.running i k) = 1 := rfl
                  rw [hz, hz2] at ha
                  have hc := hns.core
                  simp only [activeCount] at hc ⊢
                  change _ + (_ + 1) + wsum activeBit
                    (s.workers.set w .atLoop) = min s.cursor c.n
                  omega
                · intro hdone
                  have hd2 : ∃ st ∈ s.workers.set w .atLoop,
                      st = WStatus.done := hdone
                  have hfin := doneCur_set hns hd2 rfl
                  exact hfin
                · intro i0 hi0 hna
                  have hi0c : i0 < min s.cursor c.n := hi0
                  by_cases hieq : i0 = i
                  · subst hieq
                    right
                    simp
                  · have hna' : noActiveOn s i0 :=
                      noActiveOn_rev hst rfl i0
                        (by simp [WStatus.activeIdx]
                            exact fun h => hieq h.symm) hna
                    rcases hns.completedFull i0 hi0c hna'
                      with ⟨k3, b3, g1, g2⟩ | h
                    · exact .inl ⟨k3, b3, g1, g2⟩
                    · right
                      simp [h]
            · rw [if_neg hkr]
              by_cases hd : 0 < c.opts.retryDelay
              · rw [if_pos hd]
                refine ⟨?_, ?_, ?_⟩
                · have ha := wsum_set_of_read activeBit (.delaying i (k + 1)) hst
                  have hz : activeBit (.delaying i (k + 1)) = 1 := rfl
                  have hz2 : activeBit (.running i k) = 1 := rfl
                  rw [hz, hz2] at ha
                  have hc := hns.core
                  simp only [activeCount] at hc ⊢
                  change _ + _ + wsum activeBit
                    (s.workers.set w (.delaying i (k + 1))) = min s.cursor c.n
                  omega
                · intro hdone
                  have hd2 : ∃ st ∈ s.workers.set w (.delaying i (k + 1)),
                      st = WStatus.done := hdone
                  have hfin := doneCur_set hns hd2 rfl
                  exact hfin
                · intro i0 hi0 hna
                  have hi0c : i0 < min s.cursor c.n := hi0
                  by_cases hieq : i0 = i
                  · exfalso
                    exact hna w
                      (holds_self rfl hlt (by simp [WStatus.activeIdx, hieq]))
                  · have hna' : noActiveOn s i0 :=
                      noActiveOn_rev hst rfl i0
                        (by simp [WStatus.activeIdx]
                            exact fun h => hieq h.symm) hna
                    exact hns.completedFull i0 hi0c hna'
              · rw [if_neg hd, if_neg (by simp [hstop])]
                refine ⟨?_, ?_, ?_⟩
                · have ha := wsum_set_of_read activeBit (.running i (k + 1)) hst
                  have hz : activeBit (.running i (k + 1)) = 1 := rfl
                  have hz2 : activeBit (.running i k) = 1 := rfl
                  rw [hz, hz2] at ha
                  have hc := hns.core
                  simp only [activeCount] at hc ⊢
                  change _ + _ + wsum activeBit
                    (s.workers.set w (.running i (k + 1))) = min s.cursor c.n
                  omega
                · intro hdone
                  have hd2 : ∃ st ∈ s.workers.set w (.running i (k + 1)),
                      st = WStatus.done := hdone
                  have hfin := doneCur_set hns hd2 rfl
                  exact hfin
                · intro i0 hi0 hna
                  have hi0c : i0 < min s.cursor c.n := hi0
                  by_cases hieq : i0 = i
                  · exfalso
                    exact hna w
                      (holds_self rfl hlt (by simp [WStatus.activeIdx, hieq]))
                  · have hna' : noActiveOn s i0 :=
                      noActiveOn_rev hst rfl i0
                        (by simp [WStatus.activeIdx]
                            exact fun h => hieq h.symm) hna
                    exact hns.completedFull i0 hi0c hna'
      | delaying i k =>
        have hlt : w < s.workers.length := (List.getElem?_eq_some.mp hst).1
        have hWOK := hI.active w _ hst
        simp only [WOK] at hWOK
        obtain ⟨hcur, hk1, hkle, herrmem, hcnt, key2, b2, he2, hprev, hmem2⟩ :=
          hWOK
        simp only [stepP, hst]
        unfold delayResume
        rw [if_pos ⟨hkle, hstop⟩]
        refine ⟨?_, ?_, ?_⟩
        · have ha := wsum_set_of_read activeBit (.running i k) hst
          have hz : activeBit (.running i k) = 1 := rfl
          have hz2 : activeBit (.delaying i k) = 1 := rfl
          rw [hz, hz2] at ha
          have hc := hns.core
          simp only [activeCount] at hc ⊢
          change _ + _ + wsum activeBit (s.workers.set w (.running i k)) =
            min s.cursor c.n
          omega
        · intro hdone
          have hd2 : ∃ st ∈ s.workers.set w (.running i k),
              st = WStatus.done := hdone
          have hfin := doneCur_set hns hd2 rfl
          exact hfin
        · intro i0 hi0 hna
          have hi0c : i0 < min s.cursor c.n := hi0
          by_cases hieq : i0 = i
          · exfalso
            exact hna w (holds_self rfl hlt (by simp [WStatus.activeIdx, hieq]))
          · have hna' : noActiveOn s i0 :=
              noActiveOn_rev hst rfl i0
                (by simp [WStatus.activeIdx]
                    exact fun h => hieq h.symm) hna
            exact hns.completedFull i0 hi0c hna'

/-- The fresh run state satisfies the no-stop accounting. -/
theorem ns_init {κ V : Type} (c : Ctx κ V) : NSInv c (initSt c) := by
  refine ⟨?_, ?_, ?_⟩
  · simp only [initSt, activeCount, wsum, List.map_replicate,
      List.sum_replicate, smul_eq_mul]
    simp [activeBit]
  · rintro ⟨st, hmem, rfl⟩
    simp only [initSt] at hmem
    cases List.eq_of_mem_replicate hmem
  · intro i hi
    simp [initSt] at hi

/-- Along any schedule, the main invariant holds, and the no-stop
accounting holds whenever the run has not been stopped. -/
theorem inv_execFrom {κ V : Type} (c : Ctx κ V)
    (hkeys : (c.entries.map Prod.fst).Nodup) :
    ∀ (evs : List Ev) (s : St κ V), MInv c s →
      (s.stopped = false → NSInv c s) →
      MInv c (execFrom c s evs) ∧
        ((execFrom c s evs).stopped = false → NSInv c (execFrom c s evs)) := by
  intro evs
  induction evs with
  | nil => intro s h1 h2; exact ⟨h1, h2⟩
  | cons e evs ih =>
    intro s h1 h2
    refine ih (stepP c s e) (minv_step c s e hkeys h1) ?_
    intro hstop'
    have hstop : s.stopped = false := by
      by_contra h
      have hs : s.stopped = true := by revert h; cases s.stopped <;> simp
      rw [(step_mono c s e).1 hs] at hstop'
      cases hstop'
    exact ns_step c s e h1 (h2 hstop) hstop hstop'

/-- Every reachable state of a run satisfies the main invariant. -/
theorem minv_execP {κ V : Type} (c : Ctx κ V)
    (hkeys : (c.entries.map Prod.fst).Nodup) (evs : List Ev) :
    MInv c (execP c evs) :=
  (inv_execFrom c hkeys evs (initSt c) (minv_init c) (fun _ => ns_init c)).1

/-- Every reachable state of a never-stopped run satisfies the exact
accounting. -/
theorem ns_execP {κ V : Type} (c : Ctx κ V)
    (hkeys : (c.entries.map Prod.fst).Nodup) (evs : List Ev)
    (hstop : (execP c evs).stopped = false) : NSInv c (execP c evs) :=
  (inv_execFrom c hkeys evs (initSt c) (minv_init c) (fun _ => ns_init c)).2
    hstop

/-- Monotone facts along a whole schedule. -/
theorem exec_mono {κ V : Type} (c : Ctx κ V) :
    ∀ (evs : List Ev) (s : St κ V),
      (s.stopped = true → (execFrom c s evs).stopped = true) ∧
      (s.aborted = true → (execFrom c s evs).aborted = true) ∧
      (s.timedOut = true → (execFrom c s evs).timedOut = true) ∧
      (s.firstError.isSome = true →
        (execFrom c s evs).firstError.isSome = true) ∧
      s.cursor ≤ (execFrom c s evs).cursor := by
  intro evs
  induction evs with
  | nil => intro s; exact ⟨id, id, id, id, le_refl _⟩
  | cons e evs ih =>
    intro s
    obtain ⟨m1, m2, m3, m4, m5⟩ := step_mono c s e
    obtain ⟨i1, i2, i3, i4, i5⟩ := ih (stepP c s e)
    exact ⟨fun h => i1 (m1 h), fun h => i2 (m2 h), fun h => i3 (m3 h),
      fun h => i4 (m4 h), le_trans m5 i5⟩

/-- Once `stopped` is set, the rest of the run claims no entry and
invokes no thunk. -/
theorem stopped_frozen_exec {κ V : Type} (c : Ctx κ V) :
    ∀ (evs : List Ev) (s : St κ V), s.stopped = true →
      (execFrom c s evs).stopped = true ∧
      (execFrom c s evs).cursor = s.cursor ∧
      (execFrom c s evs).invLog = s.invLog := by
  intro evs
  induction evs with
  | nil => intro s h; exact ⟨h, rfl, rfl⟩
  | cons e evs ih =>
    intro s h
    obtain ⟨f1, f2, f3⟩ := stopped_frozen c s e h
    obtain ⟨g1, g2, g3⟩ := ih (stepP c s e) f1
    have he : execFrom c s (e :: evs) = execFrom c (stepP c s e) evs := rfl
    rw [he, g2, g3]
    exact ⟨g1, f2, f3⟩

/-! ## Settling the claims -/

/-- A settled pool has no active worker, and every worker is `done`. -/
theorem finished_facts {κ V : Type} (s : St κ V)
    (hfin : finishedSt s = true) :
    activeCount s = 0 ∧ ∀ st ∈ s.workers, st = WStatus.done := by
  simp only [finishedSt, List.all_eq_true] at hfin
  have hdone : ∀ st ∈ s.workers, st = WStatus.done := by
    intro st hst
    have := hfin st hst
    cases st <;> simp [WStatus.isDone] at this ⊢
  refine ⟨?_, hdone⟩
  simp only [activeCount, wsum]
  apply List.sum_eq_zero
  intro x hx
  obtain ⟨st, hst, rfl⟩ := List.mem_map.mp hx
  rw [hdone st hst]
  rfl

/-- The spec's domain for the concurrency option: a positive integer or
unbounded. -/
def validConc (o : Options) : Prop :=
  match o.concurrency with
  | none => True
  | some lim => 1 ≤ lim

instance (o : Options) : Decidable (validConc o) := by
  unfold validConc
  split <;> infer_instance

/-- A run that was never stopped and whose pool settled has claimed and
completed every entry: `succeeded + failed = n`. -/
theorem conservation {κ V : Type} (c : Ctx κ V)
    (hkeys : (c.entries.map Prod.fst).Nodup) (sched : List Ev)
    (hconc : validConc c.opts)
    (hfin : finishedSt (execP c sched) = true)
    (hstop : (execP c sched).stopped = false) :
    (execP c sched).succeeded + (execP c sched).failed = c.n := by
  have hns := ns_execP c hkeys sched hstop
  obtain ⟨hact, hdone⟩ := finished_facts _ hfin
  have hcore := hns.core
  rw [hact] at hcore
  rcases Nat.eq_zero_or_pos c.n with hn | hn
  · omega
  · have hI := minv_execP c hkeys sched
    have hwc : 1 ≤ c.workerCount := by
      rcases hcc : c.opts.concurrency with _ | lim
      · simp only [Ctx.workerCount, hcc]
        omega
      · simp only [Ctx.workerCount, hcc]
        simp only [validConc, hcc] at hconc
        omega
    have hlen : (execP c sched).workers.length = c.workerCount := hI.wlen
    have hne : (execP c sched).workers ≠ [] := by
      intro h
      rw [h] at hlen
      simp at hlen
      omega
    obtain ⟨st, hmem⟩ := List.exists_mem_of_ne_nil _ hne
    have hcur := hns.doneCur ⟨st, hmem, hdone st hmem⟩
    omega

/-- Outcome analysis: a run with a settled state rejects with a (non
timeout) task error exactly when `throwOnFirstError` is on, `ignoreErrors`
is off and some task failed its final permitted attempt; the rejection
value is the first captured error; otherwise a result object carrying all
captured failures is returned. -/
def C3Prop {κ V ρ : Type} (assemble : List (κ × V) → ρ) (c : Ctx κ V)
    (sched : List Ev) : Prop :=
  ((∃ e, outcomeWith assemble c.opts (execP c sched) =
      .error (.taskError e)) ↔
    (c.opts.throwOnFirstError = true ∧ c.opts.ignoreErrors = false ∧
      (execP c sched).errors ≠ [])) ∧
  (∀ e, outcomeWith assemble c.opts (execP c sched) = .error (.taskError e) →
    (execP c sched).errors.head? = some e) ∧
  (∀ r, outcomeWith assemble c.opts (execP c sched) = .ok r →
    r.errors = (execP c sched).errors)

/-- C3: for every run that does not time out, `withConcurrency` rejects
with a task error iff fail-fast was requested, ignore-errors was not set,
and at least one task failed on its final permitted attempt (the `errors`
list records exactly those failures, one entry each, by `MInv.errLen` and
`MInv.errStruct`); the rejection value is the first captured normalized
error and no result object is returned.  In particular with both flags
set, all failures are reported in the result's `errors` and the run never
rejects with a task error. -/
theorem c3_failfast_iff {κ V ρ : Type} (assemble : List (κ × V) → ρ)
    (c : Ctx κ V) (hkeys : (c.entries.map Prod.fst).Nodup) (sched : List Ev)
    (hnt : (execP c sched).timedOut = false) :
    C3Prop assemble c sched := by
  have hI := minv_execP c hkeys sched
  unfold C3Prop outcomeWith
  rw [if_neg (by simp [hnt])]
  rcases hfe : (execP c sched).firstError with _ | e0
  · refine ⟨?_, ?_, ?_⟩
    · constructor
      · rintro ⟨e, he⟩
        cases he
      · rintro ⟨htofe, hig, herrs⟩
        have h2 := hI.fe2 htofe hig
        rw [hfe] at h2
        exact absurd (List.head?_eq_none_iff.mp h2.symm) herrs
    · intro e he
      cases he
    · intro r hr
      cases hr
      rfl
  · by_cases htofe : c.opts.throwOnFirstError = true
    · simp only [htofe, reduceIte]
      have hig : c.opts.ignoreErrors = false := by
        by_contra h
        have hig2 : c.opts.ignoreErrors = true := by
          revert h
          cases c.opts.ignoreErrors <;> simp
        have h1 := hI.fe1 (by rintro ⟨_, h2⟩; rw [hig2] at h2; cases h2)
        rw [hfe] at h1
        cases h1
      refine ⟨?_, ?_, ?_⟩
      · constructor
        · rintro ⟨e, he⟩
          refine ⟨trivial, hig, ?_⟩
          have h2 := hI.fe2 htofe hig
          rw [hfe] at h2
          intro hnil
          rw [hnil] at h2
          cases h2
        · intro _
          exact ⟨e0, rfl⟩
      · intro e he
        have h2 := hI.fe2 htofe hig
        rw [hfe] at h2
        cases he
        exact h2.symm
      · intro r hr
        cases hr
    · have h1 := hI.fe1 (fun hc => htofe hc.1)
      rw [hfe] at h1
      cases h1

/-- A normally returned result object carries the final counts, and such
a return forces `timedOut = false`, `firstError = none`. -/
theorem ok_outcome_facts {κ V ρ : Type} (assemble : List (κ × V) → ρ)
    (c : Ctx κ V) (s : St κ V) (r : RunResult ρ) (hI : MInv c s)
    (hok : outcomeWith assemble c.opts s = .ok r) :
    s.timedOut = false ∧ s.firstError = none ∧
    r.succeeded = s.succeeded ∧ r.failed = s.failed ∧
    r.errors = s.errors ∧ r.results = assemble s.resultEntries := by
  have hto : s.timedOut = false := by
    by_contra h
    have h2 : s.timedOut = true := by revert h; cases s.timedOut <;> simp
    unfold outcomeWith at hok
    rw [if_pos (by simp [h2])] at hok
    cases hok
  unfold outcomeWith at hok
  rw [if_neg (by simp [hto])] at hok
  rcases hfe : s.firstError with _ | e0
  · simp only [hfe] at hok
    cases hok
    exact ⟨hto, rfl, rfl, rfl, rfl, rfl⟩
  · simp only [hfe] at hok
    by_cases htofe : c.opts.throwOnFirstError = true
    · simp only [htofe, reduceIte] at hok
      cases hok
    · have h1 := hI.fe1 (fun hc => htofe hc.1)
      rw [hfe] at h1
      cases h1

/-- A run that returns a result object without the abort signal having
fired was never stopped. -/
theorem ok_not_stopped {κ V : Type} (c : Ctx κ V) (s : St κ V)
    (hI : MInv c s) (hto : s.timedOut = false) (hfe : s.firstError = none)
    (hab : s.aborted = false) : s.stopped = false := by
  by_contra h
  have h2 : s.stopped = true := by revert h; cases s.stopped <;> simp
  rcases hI.stopSrc h2 with h3 | h3 | h3
  · rw [hab] at h3; cases h3
  · rw [hto] at h3; cases h3
  · rw [hfe] at h3; cases h3

/-- C1 (amended): whenever `withConcurrency` completes normally AND the
cancellation signal never fired, the returned `succeeded` plus `failed`
counts equal the number of submitted entries — on both input shapes.
(The un-amended claim fails on cancelled runs, which also complete
normally: see the counterexample.) -/
theorem c1_conservation_amended {V : Type} :
    (∀ (tasks : List (Nat → TaskOutcome V)) (opts : Options) (sched : List Ev)
       (r : RunResult (List V)),
      validConc opts →
      runListP tasks opts sched = .ok r →
      finishedSt (execP (⟨tasks.enum, opts⟩ : Ctx Nat V) sched) = true →
      (execP (⟨tasks.enum, opts⟩ : Ctx Nat V) sched).aborted = false →
      r.succeeded + r.failed = tasks.length) ∧
    (∀ (tasks : List (String × (Nat → TaskOutcome V))) (opts : Options)
       (sched : List Ev) (r : RunResult (List (String × V))),
      (tasks.map Prod.fst).Nodup →
      validConc opts →
      runObjP tasks opts sched = .ok r →
      finishedSt (execP (⟨tasks, opts⟩ : Ctx String V) sched) = true →
      (execP (⟨tasks, opts⟩ : Ctx String V) sched).aborted = false →
      r.succeeded + r.failed = tasks.length) := by
  constructor
  · intro tasks opts sched r hconc hok hfin hab
    by_cases hlen : tasks.length = 0
    · unfold runListP at hok
      rw [if_pos hlen] at hok
      cases hok
      simp [hlen]
    · unfold runListP at hok
      rw [if_neg hlen] at hok
      set c : Ctx Nat V := ⟨tasks.enum, opts⟩ with hc
      have hkeys : (c.entries.map Prod.fst).Nodup := by
        rw [hc]
        simp only [List.enum_map_fst]
        exact List.nodup_range _
      have hI := minv_execP c hkeys sched
      obtain ⟨hto, hfe, hs, hf, _, _⟩ :=
        ok_outcome_facts assembleList c _ r hI hok
      have hstop := ok_not_stopped c _ hI hto hfe hab
      have hcons := conservation c hkeys sched hconc hfin hstop
      rw [hs, hf, hcons]
      simp [Ctx.n, hc]
  · intro tasks opts sched r hkeys0 hconc hok hfin hab
    by_cases hlen : tasks.length = 0
    · unfold runObjP at hok
      rw [if_pos hlen] at hok
      cases hok
      simp [hlen]
    · unfold runObjP at hok
      rw [if_neg hlen] at hok
      set c : Ctx String V := ⟨tasks, opts⟩ with hc
      have hkeys : (c.entries.map Prod.fst).Nodup := hkeys0
      have hI := minv_execP c hkeys sched
      obtain ⟨hto, hfe, hs, hf, _, _⟩ := ok_outcome_facts id c _ r hI hok
      have hstop := ok_not_stopped c _ hI hto hfe hab
      have hcons := conservation c hkeys sched hconc hfin hstop
      rw [hs, hf, hcons]
      rfl

/-- Decidable equality of run outcomes, for settling concrete runs. -/
instance {ε α : Type} [DecidableEq ε] [DecidableEq α] :
    DecidableEq (Except ε α)
  | .error e1, .error e2 =>
    if h : e1 = e2 then .isTrue (by rw [h])
    else .isFalse (by intro hh; cases hh; exact h rfl)
  | .error _, .ok _ => .isFalse (by intro h; cases h)
  | .ok _, .error _ => .isFalse (by intro h; cases h)
  | .ok a1, .ok a2 =>
    if h : a1 = a2 then .isTrue (by rw [h])
    else .isFalse (by intro hh; cases hh; exact h rfl)

/-- One task that would resolve with `5`, an already-aborted signal. -/
def cex1Tasks : List (Nat → TaskOutcome Nat) := [fun _ => .ok 5]

/-- Options of the cancellation counterexample: only a signal. -/
def cex1Opts : Options := { hasSignal := true }

/-- The signal fires before the single worker's first loop iteration —
the run of a signal already aborted before the call. -/
def cex1Sched : List Ev := [.abortFire, .work 0]

/-- C1 (counterexample to the claim as stated): with one submitted task
and an already-triggered cancellation signal, the run completes normally
(the pool settles, no timeout, no fail-fast rejection, a result object is
returned), yet `succeeded + failed = 0 + 0 ≠ 1 =` number of submitted
entries.  So conservation does not hold for every normally-completing
run: cancellation leaves entries unclaimed and uncounted. -/
theorem c1_cancel_counterexample :
    runListP cex1Tasks cex1Opts cex1Sched = .ok ⟨[], [], 0, 0⟩ ∧
    cex1Tasks.length = 1 ∧
    finishedSt (execP (⟨cex1Tasks.enum, cex1Opts⟩ : Ctx Nat Nat)
      cex1Sched) = true := by
  decide

/-- One slow task (its resolution event never scheduled). -/
def cex2Tasks : List (Nat → TaskOutcome Nat) := [fun _ => .ok 0]

/-- Options of the abort-under-timeout run: a 1000 ms timeout and a
signal. -/
def cex2Opts : Options := { timeout := some 1000, hasSignal := true }

/-- The worker starts the task, then the signal fires; firing the signal
resolves `sleep(timeout, signal)` early, which runs the timeout
rejection branch (`stopped = true; throw new Error(...)`) while the pool
is still pending, so `Promise.race` rejects. -/
def cex2Sched : List Ev := [.work 0, .abortFire, .timerFire]

/-- C2 (code bug, failing run): a run with a finite timeout in which the
external signal fires mid-run — and in which no fail-fast applies
(`throwOnFirstError = false`) — REJECTS with the timeout error
"Concurrence timed out after 1000ms" even though no 1000 ms elapsed,
because `sleep(timeout, signal)` resolves early on abort and its `.then`
throws.  The claim (and the spec: "Cancellation never escalates to an
error") says such a run resolves normally. -/
theorem c2_timeout_on_abort :
    runListP cex2Tasks cex2Opts cex2Sched =
      .error (.timeout "Concurrence timed out after 1000ms") ∧
    finishedSt (execP (⟨cex2Tasks.enum, cex2Opts⟩ : Ctx Nat Nat)
      cex2Sched) = false ∧
    cex2Opts.throwOnFirstError = false := by
  decide

/-- One always-failing task. -/
def cex8Tasks : List (Nat → TaskOutcome Nat) := [fun _ => .err (.errObj "boom")]

/-- Options of the abort-mid-retry-delay run: one retry with a 100 ms
inter-retry delay and a signal. -/
def cex8Opts : Options := { retry := 1, retryDelay := 100, hasSignal := true }

/-- Attempt 0 fails, the worker enters the retry delay, the signal fires
mid-delay, the delay resolves early, and the loop guard — with `stopped`
still `false` because no worker has reached a claim check — re-invokes
the thunk. -/
def cex8Sched : List Ev := [.work 0, .work 0, .abortFire, .work 0, .work 0,
  .work 0]

/-- C8 (counterexample to the claim as stated): the signal fires while
the single worker is suspended in its inter-retry delay (after two steps
the pool is exactly `[delaying 0 1]`), yet the thunk IS attempted again:
the invocation log ends with attempt 1 of entry 0 carried out with the
signal already fired (flag `true`).  The abort alone does not set
`stopped`; only a worker's pre-claim check does. -/
theorem c8_retry_after_abort_counterexample :
    (execP (⟨cex8Tasks.enum, cex8Opts⟩ : Ctx Nat Nat) cex8Sched).invLog =
      [(0, 0, false), (0, 1, true)] ∧
    (execP (⟨cex8Tasks.enum, cex8Opts⟩ : Ctx Nat Nat)
      (List.take 2 cex8Sched)).workers = [.delaying 0 1] ∧
    finishedSt (execP (⟨cex8Tasks.enum, cex8Opts⟩ : Ctx Nat Nat)
      cex8Sched) = true := by
  decide

/-- After the timeout race is lost at a point where the pool has not
settled, the whole run: keeps `timedOut` and `stopped` set, claims no
further entry, invokes no further thunk, and settles as the timeout
rejection whose message names the configured duration — whatever
`failFast`/`ignoreErrors` say. -/
def C4Prop {κ V : Type} (c : Ctx κ V) (t : Nat)
    (sched1 sched2 : List Ev) : Prop :=
  (execP c (sched1 ++ .timerFire :: sched2)).timedOut = true ∧
  (execP c (sched1 ++ .timerFire :: sched2)).stopped = true ∧
  (execP c (sched1 ++ .timerFire :: sched2)).cursor =
    (execP c sched1).cursor ∧
  (execP c (sched1 ++ .timerFire :: sched2)).invLog =
    (execP c sched1).invLog ∧
  (∀ (ρ : Type) (assemble : List (κ × V) → ρ),
    outcomeWith assemble c.opts (execP c (sched1 ++ .timerFire :: sched2)) =
      .error (.timeout (timeoutMsg t)))

/-- C4: in every run with a finite timeout `t` whose worker pool has not
fully settled when the `sleep(timeout, signal)` of the race resolves, the
run rejects with the distinct timeout error naming `t`, the global
`stopped` flag is set, and the workers cease claiming entries (the cursor
and the invocation log never change again) — regardless of the
`failFast`/`ignoreErrors` options, over which the statement is fully
quantified. -/
theorem c4_timeout_rejects {κ V : Type} (c : Ctx κ V) (t : Nat)
    (sched1 sched2 : List Ev) (ht : c.opts.timeout = some t)
    (hnf : finishedSt (execP c sched1) = false)
    (hto1 : (execP c sched1).timedOut = false) :
    C4Prop c t sched1 sched2 := by
  have hsplit : execP c (sched1 ++ .timerFire :: sched2) =
      execFrom c (stepP c (execP c sched1) .timerFire) sched2 := by
    unfold execP execFrom
    rw [List.foldl_append]
    rfl
  have hstep : stepP c (execP c sched1) .timerFire =
      { execP c sched1 with stopped := true, timedOut := true } := by
    simp only [stepP, ht]
    rw [if_neg]
    simp [hto1, hnf]
  have hfr := stopped_frozen_exec c sched2
    ({ execP c sched1 with stopped := true, timedOut := true }) rfl
  obtain ⟨f1, f2, f3⟩ := hfr
  have hmono := exec_mono c sched2
    ({ execP c sched1 with stopped := true, timedOut := true })
  have hto : (execP c (sched1 ++ .timerFire :: sched2)).timedOut = true := by
    rw [hsplit, hstep]
    exact (hmono.2.2.1) rfl
  refine ⟨hto, ?_, ?_, ?_, ?_⟩
  · rw [hsplit, hstep]
    exact f1
  · rw [hsplit, hstep, f2]
  · rw [hsplit, hstep, f3]
  · intro ρ assemble
    unfold outcomeWith
    rw [if_pos (by simp [hto]), ht]
    rfl

/-- Entries enter execution as a gapless, duplicate-free prefix of the
submission order, and a worker that reaches the pre-claim abort check
with the signal fired sets `stopped`, runs nothing, and exits. -/
def C7Prop {κ V : Type} (c : Ctx κ V) (sched : List Ev) : Prop :=
  (∃ m, m ≤ c.n ∧ firstInvSeq (execP c sched) = List.range m) ∧
  (∀ (s : St κ V) (w : Nat), s.workers[w]? = some .atLoop →
    s.stopped = false → s.cursor < c.n → s.aborted = true →
    (stepP c s (.work w)).stopped = true ∧
    (stepP c s (.work w)).invLog = s.invLog ∧
    (stepP c s (.work w)).workers[w]? = some .done)

/-- C7: in every run the entries that enter execution do so strictly in
submission order with no entry skipped or executed twice (the sequence of
first attempts is exactly `range m` for some `m ≤ n`, by the shared
cursor); and when a worker is about to take a new entry with the
cancellation signal already triggered, it sets `stopped` and exits
without running any entry. -/
theorem c7_claim_order {κ V : Type} (c : Ctx κ V)
    (hkeys : (c.entries.map Prod.fst).Nodup) (sched : List Ev) :
    C7Prop c sched := by
  constructor
  · obtain ⟨m, hm, hd⟩ := (minv_execP c hkeys sched).firstinv
    refine ⟨m, ?_, hm⟩
    rcases hd with h | ⟨h, _⟩ <;> omega
  · intro s w hw hstop hn ha
    have hlt : w < s.workers.length := (List.getElem?_eq_some.mp hw).1
    simp only [stepP, hw]
    unfold loopStep
    rw [if_neg (by simp [hstop]), if_neg (by omega), if_pos ha]
    exact ⟨rfl, rfl, getElem?_set_self _ _ _ hlt⟩

/-- Once `stopped` holds, the rest of the run invokes no thunk at all;
and in particular a worker whose inter-retry delay resolves under
`stopped` returns to its loop without a new attempt. -/
def C8Prop {κ V : Type} (c : Ctx κ V) : Prop :=
  (∀ (s : St κ V) (evs : List Ev), s.stopped = true →
    (execFrom c s evs).invLog = s.invLog ∧
    (execFrom c s evs).stopped = true) ∧
  (∀ (s : St κ V) (w i k : Nat), s.workers[w]? = some (.delaying i k) →
    s.stopped = true →
    (stepP c s (.work w)).invLog = s.invLog ∧
    (stepP c s (.work w)).workers = s.workers.set w .atLoop)

/-- C8 (amended): if the signal fires mid-retry-delay, the delay resolves
early, but the interrupted task's thunk is prevented from being attempted
again only once `stopped` has actually been set (which the abort alone
does not do — see the counterexample): from any state with `stopped`
set, the remainder of the run performs no invocation, and a delay
resolving under `stopped` returns the worker to its loop without an
attempt. -/
theorem c8_stopped_freezes {κ V : Type} (c : Ctx κ V) : C8Prop c := by
  constructor
  · intro s evs hstop
    obtain ⟨g1, g2, g3⟩ := stopped_frozen_exec c evs s hstop
    exact ⟨g3, g1⟩
  · intro s w i k hw hstop
    simp only [stepP, hw]
    unfold delayResume
    rw [if_neg (by simp [hstop])]
    exact ⟨rfl, rfl⟩

/-- Retry accounting: every entry is invoked at most `retry + 1` times;
an always-failing entry of a finished, never-stopped run with `retry = 2`
is invoked exactly 3 times and contributes exactly one captured error
(`errLog` indexes the `errors` list one-to-one). -/
def C6Prop {κ V : Type} (c : Ctx κ V) (sched : List Ev) : Prop :=
  (∀ i, countInv (execP c sched) i ≤ c.opts.retry + 1) ∧
  (∀ (i : Nat) (key : κ) (b : Nat → TaskOutcome V),
    c.opts.retry = 2 →
    c.entries[i]? = some (key, b) →
    (∀ j, (b j).isErr) →
    finishedSt (execP c sched) = true →
    (execP c sched).stopped = false →
    validConc c.opts →
    countInv (execP c sched) i = 3 ∧
    (execP c sched).errLog.count i = 1 ∧
    (execP c sched).errLog.length = (execP c sched).errors.length)

/-- C6: in every run every entry's thunk is invoked at most `retry + 1`
times; and a task failing on every attempt in a run with `retry = 2`
that completes with no stop condition intervening is invoked exactly 3
times and appears exactly once in the captured-error log. -/
theorem c6_retry_bound {κ V : Type} (c : Ctx κ V)
    (hkeys : (c.entries.map Prod.fst).Nodup) (sched : List Ev) :
    C6Prop c sched := by
  have hI := minv_execP c hkeys sched
  refine ⟨hI.cntBound, ?_⟩
  intro i key b hretry he hallerr hfin hstop hconc
  have hns := ns_execP c hkeys sched hstop
  have hin : i < c.n := by
    have := (List.getElem?_eq_some.mp he).1
    exact this
  obtain ⟨hact, hdone⟩ := finished_facts _ hfin
  have hna : noActiveOn (execP c sched) i := by
    intro u hu
    obtain ⟨st, hst, hidx⟩ := hu
    have hmem : st ∈ (execP c sched).workers := List.getElem?_mem hst
    rw [hdone st hmem] at hidx
    simp [WStatus.activeIdx] at hidx
  have hwc : 1 ≤ c.workerCount := by
    rcases hcc : c.opts.concurrency with _ | lim
    · simp only [Ctx.workerCount, hcc]
      omega
    · simp only [Ctx.workerCount, hcc]
      simp only [validConc, hcc] at hconc
      omega
  have hlen : (execP c sched).workers.length = c.workerCount := hI.wlen
  have hne : (execP c sched).workers ≠ [] := by
    intro h
    rw [h] at hlen
    simp at hlen
    omega
  obtain ⟨st, hmem⟩ := List.exists_mem_of_ne_nil _ hne
  have hcur := hns.doneCur ⟨st, hmem, hdone st hmem⟩
  have hlt : i < min (execP c sched).cursor c.n := by omega
  rcases hns.completedFull i hlt hna with ⟨key3, b3, g1, g2⟩ | hmemerr
  · exfalso
    rw [he] at g1
    obtain ⟨hk3, hb3⟩ : key = key3 ∧ b = b3 := by simpa using g1
    obtain ⟨p, hp, hpk⟩ := List.mem_map.mp g2
    obtain ⟨i2, key2, b2, j2, e1, e2, _, _, hok, _, _⟩ := hI.resStruct p hp
    have hieq : i2 = i := by
      apply keys_inj hkeys e1
      rw [e2, hpk, ← hk3]
      exact he
    rw [hieq, he] at e1
    obtain ⟨hk2, hb2⟩ : key = key2 ∧ b = b2 := by simpa using e1
    have := hallerr j2
    rw [hb2, hok] at this
    exact this
  · refine ⟨?_, List.count_eq_one_of_mem hI.errNodup hmemerr, hI.errLen⟩
    have := hI.errStruct i hmemerr
    rw [hretry] at this
    exact this

/-- With duplicate-free keys, `lookup` finds exactly the member pairs. -/
theorem lookup_mem_iff {V : Type} (L : List (Nat × V))
    (hnd : (L.map Prod.fst).Nodup) (i : Nat) (v : V) :
    L.lookup i = some v ↔ (i, v) ∈ L := by
  induction L with
  | nil => simp [List.lookup]
  | cons a t ih =>
    obtain ⟨k, w⟩ := a
    simp only [List.map_cons, List.nodup_cons] at hnd
    obtain ⟨hka, hndt⟩ := hnd
    by_cases h : i = k
    · subst h
      simp only [List.lookup, beq_self_eq_true, List.mem_cons]
      constructor
      · intro hv
        simp only [Option.some.injEq] at hv
        left
        simp [hv]
      · rintro (hv | hv)
        · simp only [Prod.mk.injEq] at hv
          simp [hv.2]
        · exact absurd (List.mem_map.mpr ⟨(i, v), hv, rfl⟩) hka
    · have hb : (i == k) = false := by simpa using h
      simp only [List.lookup, hb, List.mem_cons]
      rw [ih hndt]
      constructor
      · exact fun hv => Or.inr hv
      · rintro (hv | hv)
        · simp only [Prod.mk.injEq] at hv
          exact absurd hv.1 h
        · exact hv

/-- A `filterMap` image of a pairwise list is pairwise under the
transported relation. -/
theorem pairwise_filterMap_of {α β : Type} {R : α → α → Prop} {S : β → β → Prop}
    (g : α → Option β) (l : List α) (hp : l.Pairwise R)
    (hrel : ∀ a a2 b b2, R a a2 → g a = some b → g a2 = some b2 → S b b2) :
    (l.filterMap g).Pairwise S := by
  induction l with
  | nil => simp
  | cons a t ih =>
    rw [List.pairwise_cons] at hp
    obtain ⟨ha, ht⟩ := hp
    rcases hg : g a with _ | b
    · simp only [List.filterMap_cons, hg]
      exact ih ht
    · simp only [List.filterMap_cons, hg]
      rw [List.pairwise_cons]
      refine ⟨?_, ih ht⟩
      intro b2 hb2
      obtain ⟨a2, ha2, hga2⟩ := List.mem_filterMap.mp hb2
      exact hrel a a2 b b2 (ha a2 ha2) hg hga2

/-- Sorting a duplicate-free-keyed pair list by key and keeping the
values is enumerating the key range in order and looking each key up:
the output order depends only on the keys, never on the list order. -/
theorem assembleList_eq {V : Type} (n : Nat) (L : List (Nat × V))
    (hnd : (L.map Prod.fst).Nodup) (hlt : ∀ p ∈ L, p.1 < n) :
    assembleList L = (List.range n).filterMap (fun i => L.lookup i) := by
  have hndL : L.Nodup := hnd.of_map Prod.fst
  set g : Nat → Option (Nat × V) := fun i => (L.lookup i).map (fun v => (i, v)) with hg
  set R : List (Nat × V) := (List.range n).filterMap g with hR
  have hgz : ∀ i p, g i = some p → p.1 = i ∧ L.lookup i = some p.2 := by
    intro i p hp
    obtain ⟨v, hv, hvp⟩ := Option.map_eq_some'.mp hp
    rw [← hvp]
    exact ⟨rfl, hv⟩
  have hmemR : ∀ p : Nat × V, p ∈ R ↔ p ∈ L := by
    intro p
    rw [hR, List.mem_filterMap]
    constructor
    · rintro ⟨j, hj, hgj⟩
      obtain ⟨h1, h2⟩ := hgz j p hgj
      rw [← h1] at h2
      exact (lookup_mem_iff L hnd p.1 p.2).mp (by rw [h2])
    · intro hp
      refine ⟨p.1, List.mem_range.mpr (hlt p hp), ?_⟩
      rw [hg]
      simp only
      rw [(lookup_mem_iff L hnd p.1 p.2).mpr hp]
      rfl
  have hRstrict : R.Pairwise (fun p q : Nat × V => p.1 < q.1) := by
    refine pairwise_filterMap_of g (List.range n) (List.pairwise_lt_range n) ?_
    intro a a2 b b2 hlt2 hb hb2
    rw [(hgz a b hb).1, (hgz a2 b2 hb2).1]
    exact hlt2
  have hRnd : R.Nodup := hRstrict.imp (fun h => by
    intro he
    rw [he] at h
    exact lt_irrefl _ h)
  have hperm : List.Perm
      (List.insertionSort (fun a b : Nat × V => a.1 ≤ b.1) L) R := by
    refine (List.perm_insertionSort _ L).trans ?_
    rw [List.perm_ext_iff_of_nodup hndL hRnd]
    intro p
    rw [hmemR p]
  haveI : IsTotal (Nat × V) (fun a b => a.1 ≤ b.1) :=
    ⟨fun a b => Nat.le_total a.1 b.1⟩
  haveI : IsTrans (Nat × V) (fun a b => a.1 ≤ b.1) :=
    ⟨fun a b c h1 h2 => Nat.le_trans h1 h2⟩
  have hsortle := List.sorted_insertionSort (fun a b : Nat × V => a.1 ≤ b.1) L
  have hkeysperm : List.Perm
      ((List.insertionSort (fun a b : Nat × V => a.1 ≤ b.1) L).map Prod.fst)
      (L.map Prod.fst) := (List.perm_insertionSort _ L).map Prod.fst
  have hndS : ((List.insertionSort (fun a b : Nat × V => a.1 ≤ b.1) L).map
      Prod.fst).Nodup := hkeysperm.nodup_iff.mpr hnd
  have hneS : (List.insertionSort (fun a b : Nat × V => a.1 ≤ b.1) L).Pairwise
      (fun p q : Nat × V => p.1 ≠ q.1) := List.pairwise_map.mp hndS
  have hSstrict : (List.insertionSort (fun a b : Nat × V => a.1 ≤ b.1) L).Pairwise
      (fun p q : Nat × V => p.1 < q.1) :=
    (hsortle.and hneS).imp (fun h => lt_of_le_of_ne h.1 h.2)
  haveI : IsAntisymm (Nat × V) (fun p q => p.1 < q.1) :=
    ⟨fun a b h1 h2 => absurd (lt_trans h1 h2) (lt_irrefl _)⟩
  have heq : List.insertionSort (fun a b : Nat × V => a.1 ≤ b.1) L = R :=
    List.eq_of_perm_of_sorted hperm hSstrict hRstrict
  rw [assembleList, heq, hR, List.map_filterMap]
  congr 1
  funext i
  rw [hg]
  simp [Option.map_map, Function.comp]

/-- C5: a list-shaped run that returns a result object, with the pool
settled and no cancellation, delivers `results` as the index-ordered
enumeration of the successful entries — the completion-order
`resultEntries` contribute only through keys and values, never through
their order — and an index is present exactly when its task ultimately
succeeded: some attempt `j` within the retry budget resolved after all
earlier attempts rejected. -/
theorem c5_list_order {V : Type} (tasks : List (Nat → TaskOutcome V))
    (opts : Options) (sched : List Ev) (r : RunResult (List V))
    (hconc : validConc opts)
    (hok : runListP tasks opts sched = .ok r)
    (hfin : finishedSt (execP (⟨tasks.enum, opts⟩ : Ctx Nat V) sched) = true)
    (hab : (execP (⟨tasks.enum, opts⟩ : Ctx Nat V) sched).aborted = false) :
    r.results = (List.range tasks.length).filterMap
      (fun i =>
        (execP (⟨tasks.enum, opts⟩ : Ctx Nat V) sched).resultEntries.lookup i) ∧
    ∀ i beh v, tasks[i]? = some beh →
      ((execP (⟨tasks.enum, opts⟩ : Ctx Nat V) sched).resultEntries.lookup i
          = some v ↔
        ∃ j, j ≤ opts.retry ∧ beh j = .ok v ∧ ∀ j2 < j, (beh j2).isErr) := by
  set c : Ctx Nat V := ⟨tasks.enum, opts⟩ with hc
  set s : St Nat V := execP c sched with hs
  by_cases hlen : tasks.length = 0
  · rw [List.length_eq_zero] at hlen
    subst hlen
    unfold runListP at hok
    simp only [List.length_nil, reduceIte] at hok
    cases hok
    refine ⟨by simp, ?_⟩
    intro i beh v hbeh
    simp at hbeh
  · unfold runListP at hok
    rw [if_neg hlen] at hok
    have hkeys : (c.entries.map Prod.fst).Nodup := by
      rw [hc]
      simp only [List.enum_map_fst]
      exact List.nodup_range _
    have hI := minv_execP c hkeys sched
    have hcn : c.n = tasks.length := by
      rw [hc]
      simp [Ctx.n]
    have hent : ∀ i : Nat, c.entries[i]? = (tasks[i]?).map (fun b => (i, b)) := by
      intro i
      rw [hc]
      exact List.getElem?_enum tasks i
    obtain ⟨hto, hfe, _, _, _, hres⟩ :=
      ok_outcome_facts assembleList c s r hI hok
    have hreslt : ∀ p ∈ s.resultEntries, p.1 < tasks.length := by
      intro p hp
      obtain ⟨i2, key2, b2, j2, e1, e2, _, _, _, _, _⟩ := hI.resStruct p hp
      rw [hent i2] at e1
      rcases ht2 : tasks[i2]? with _ | b3
      · rw [ht2] at e1
        simp at e1
      · rw [ht2] at e1
        obtain ⟨hk2, _⟩ : i2 = key2 ∧ b3 = b2 := by simpa using e1
        rw [← e2, ← hk2]
        exact (List.getElem?_eq_some.mp ht2).1
    refine ⟨?_, ?_⟩
    · rw [hres]
      exact assembleList_eq tasks.length s.resultEntries hI.resNodup hreslt
    · intro i beh v hbeh
      have hin : i < tasks.length := (List.getElem?_eq_some.mp hbeh).1
      have he : c.entries[i]? = some (i, beh) := by
        rw [hent i, hbeh]
        rfl
      constructor
      · intro hlk
        have hmem : (i, v) ∈ s.resultEntries :=
          (lookup_mem_iff s.resultEntries hI.resNodup i v).mp hlk
        obtain ⟨i2, key2, b2, j, e1, e2, _, hjle, hok2, hprev2, _⟩ :=
          hI.resStruct (i, v) hmem
        have e3 : key2 = i := e2
        rw [e3] at e1
        have hi2 : i2 = i := keys_inj hkeys e1 he
        rw [hi2, he] at e1
        obtain ⟨_, hb2⟩ : i = i ∧ beh = b2 := by simpa using e1
        refine ⟨j, hjle, ?_, ?_⟩
        · rw [hb2]
          exact hok2
        · intro j2 hj2
          rw [hb2]
          exact hprev2 j2 hj2
      · rintro ⟨j, hjle, hbj, hprev⟩
        have hstop := ok_not_stopped c s hI hto hfe hab
        have hns := ns_execP c hkeys sched hstop
        obtain ⟨hact, hdone⟩ := finished_facts _ hfin
        have hna : noActiveOn s i := by
          intro u hu
          obtain ⟨st, hst, hidx⟩ := hu
          have hmem : st ∈ s.workers := List.getElem?_mem hst
          rw [hdone st hmem] at hidx
          simp [WStatus.activeIdx] at hidx
        have hin2 : i < c.n := by
          rw [hcn]
          exact hin
        have hn1 : 1 ≤ c.n := by
          rw [hcn]
          omega
        have hwc : 1 ≤ c.workerCount := by
          rcases hcc : opts.concurrency with _ | lim
          · have hwcn : c.workerCount = c.n := by
              simp only [Ctx.workerCount]
              rw [hcc]
            rw [hwcn]
            exact hn1
          · have hwcn : c.workerCount = min lim c.n := by
              simp only [Ctx.workerCount]
              rw [hcc]
            rw [hwcn]
            have hconc2 : validConc opts := hconc
            simp only [validConc, hcc] at hconc2
            exact le_min hconc2 hn1
        have hlen2 : s.workers.length = c.workerCount := hI.wlen
        have hne : s.workers ≠ [] := by
          intro h
          rw [h] at hlen2
          simp at hlen2
          omega
        obtain ⟨st, hmem⟩ := List.exists_mem_of_ne_nil _ hne
        have hcur : c.n ≤ s.cursor := hns.doneCur ⟨st, hmem, hdone st hmem⟩
        have hlt : i < min s.cursor c.n := by
          rw [hcn] at hcur ⊢
          omega
        rcases hns.completedFull i hlt hna with ⟨key3, b3, g1, g2⟩ | hmemerr
        · rw [he] at g1
          obtain ⟨hk3, hb3⟩ : i = key3 ∧ beh = b3 := by simpa using g1
          rw [← hk3] at g2
          obtain ⟨p, hp, hpk⟩ := List.mem_map.mp g2
          obtain ⟨i2, key2, b2, j2, e1, e2, _, hj2le, hok2, hprev2, _⟩ :=
            hI.resStruct p hp
          have e3 : key2 = i := by rw [e2, hpk]
          rw [e3] at e1
          have hi2 : i2 = i := keys_inj hkeys e1 he
          rw [hi2, he] at e1
          obtain ⟨_, hb2⟩ : i = i ∧ beh = b2 := by simpa using e1
          have hjj : j2 = j := by
            by_contra hne2
            rcases Nat.lt_or_ge j2 j with hlt2 | hge2
            · have h5 := hprev j2 hlt2
              rw [hb2, hok2] at h5
              exact h5
            · have hlt3 : j < j2 := by omega
              have h5 := hprev2 j hlt3
              rw [← hb2, hbj] at h5
              exact h5
          have hv : p.2 = v := by
            have h5 : b2 j2 = .ok v := by rw [hjj, ← hb2, hbj]
            rw [hok2] at h5
            simpa using h5
          rw [lookup_mem_iff s.resultEntries hI.resNodup i v]
          have hpe : p = (i, v) := by
            rw [Prod.ext_iff]
            exact ⟨hpk, hv⟩
          rw [← hpe]
          exact hp
        · exfalso
          obtain ⟨key4, b4, he4, hall⟩ := hI.errBeh i hmemerr
          rw [he] at he4
          obtain ⟨hk4, hb4⟩ : i = key4 ∧ beh = b4 := by simpa using he4
          have h5 := hall j hjle
          rw [← hb4, hbj] at h5
          exact h5

/-- Three tasks for the C5 witness: index 1 always rejects and the other
two resolve, with the schedule settling index 2 before index 0. -/
def c5wTasks : List (Nat → TaskOutcome Nat) :=
  [fun _ => .ok 10, fun _ => .err (.errObj "boom"), fun _ => .ok 30]

/-- Default options for the C5 witness run. -/
def c5wOpts : Options := {}

/-- A schedule completing the three tasks out of index order. -/
def c5wSched : List Ev :=
  [.work 0, .work 1, .work 2, .work 2, .work 0, .work 1,
   .work 0, .work 1, .work 2]

/-- The C5 theorem instantiated on a concrete completed run whose tasks
settle out of index order: the results still come back index-ordered. -/
theorem c5_list_order_witness :
    validConc c5wOpts ∧
    runListP c5wTasks c5wOpts c5wSched = .ok ⟨[10, 30], ["boom"], 2, 1⟩ ∧
    finishedSt (execP (⟨c5wTasks.enum, c5wOpts⟩ : Ctx Nat Nat) c5wSched) = true ∧
    (execP (⟨c5wTasks.enum, c5wOpts⟩ : Ctx Nat Nat) c5wSched).aborted = false ∧
    ((⟨[10, 30], ["boom"], 2, 1⟩ : RunResult (List Nat)).results =
        (List.range c5wTasks.length).filterMap
          (fun i =>
            (execP (⟨c5wTasks.enum, c5wOpts⟩ : Ctx Nat Nat)
                c5wSched).resultEntries.lookup i) ∧
      ∀ i beh v, c5wTasks[i]? = some beh →
        ((execP (⟨c5wTasks.enum, c5wOpts⟩ : Ctx Nat Nat)
              c5wSched).resultEntries.lookup i = some v ↔
          ∃ j, j ≤ c5wOpts.retry ∧ beh j = .ok v ∧ ∀ j2 < j, (beh j2).isErr)) :=
  ⟨by decide, by decide, by decide, by decide,
    c5_list_order c5wTasks c5wOpts c5wSched ⟨[10, 30], ["boom"], 2, 1⟩
      (by decide) (by decide) (by decide) (by decide)⟩

/-- Progress weight of one worker: how much of its loop-and-retry control
flow is still ahead of it (larger = more work left before `worker`
returns).  `runTask` at attempt `k` still has `retry - k` retries. -/
def wMeasure (r : Nat) : WStatus → Nat
  | .atLoop => 1
  | .running _ k => 2 * (r - k) + 3
  | .delaying _ k => 2 * (r - k) + 4
  | .done => 0

/-- Global termination measure of a run state: remaining cursor range
(each claim or exit bumps `taskIndex` once, at most `n + workers` times
in total), plus the pool's progress weights, plus one-shot bits for the
timeout and abort transitions. -/
def stMeasure {κ V : Type} (c : Ctx κ V) (s : St κ V) : Nat :=
  (2 * c.opts.retry + 4) *
    (c.n + c.workerCount - min s.cursor (c.n + c.workerCount)) +
  wsum (wMeasure c.opts.retry) s.workers +
  (if s.timedOut = true then 0 else 1) +
  (if s.aborted = true then 0 else 1)

/-- A pool sum of a 0/1 weight is at most the pool size. -/
theorem wsum_le_length (f : WStatus → Nat) (hf : ∀ st, f st ≤ 1)
    (l : List WStatus) : wsum f l ≤ l.length := by
  induction l with
  | nil => simp [wsum]
  | cons a t ih =>
    simp only [wsum, List.map_cons, List.sum_cons, List.length_cons]
    have := hf a
    simp only [wsum] at ih
    omega

/-- A worker not yet `done` keeps the done-count strictly below the pool
size. -/
theorem doneCount_bound {κ V : Type} (s : St κ V) {w : Nat} {st : WStatus}
    (hw : s.workers[w]? = some st) (hnd : doneBit st = 0) :
    doneCount s + 1 ≤ s.workers.length := by
  have h := wsum_set_of_read doneBit .done hw
  rw [hnd] at h
  have h2 : wsum doneBit (s.workers.set w .done) ≤
      (s.workers.set w .done).length :=
    wsum_le_length doneBit (fun st0 => by cases st0 <;> simp [doneBit]) _
  rw [List.length_set] at h2
  simp only [doneCount]
  have hdb : doneBit .done = 1 := rfl
  omega

/-- Every scheduler event either leaves the state unchanged or strictly
decreases the termination measure: no run performs infinitely many
effective steps, so every worker loop and retry loop terminates. -/
theorem measure_step {κ V : Type} (c : Ctx κ V) (s : St κ V) (e : Ev)
    (hI : MInv c s) :
    stepP c s e = s ∨ stMeasure c (stepP c s e) < stMeasure c s := by
  have hv1 : wMeasure c.opts.retry .atLoop = 1 := rfl
  have hv0 : wMeasure c.opts.retry .done = 0 := rfl
  cases e with
  | abortFire =>
    simp only [stepP]
    split
    · rename_i h
      right
      simp only [stMeasure, h.2]
      dsimp only
      simp only [reduceIte]
      have hif : (if false = true then (0 : Nat) else 1) = 1 := rfl
      omega
    · exact .inl rfl
  | timerFire =>
    simp only [stepP]
    split
    · exact .inl rfl
    · split
      · exact .inl rfl
      · rename_i h
        right
        have ht : s.timedOut = false := by
          revert h
          cases s.timedOut
          · intro _; rfl
          · intro h; exact absurd (Or.inl rfl) h
        simp only [stMeasure, ht]
        dsimp only
        simp only [reduceIte]
        have hif : (if false = true then (0 : Nat) else 1) = 1 := rfl
        omega
  | work w =>
    simp only [stepP]
    split
    · exact .inl rfl
    · exact .inl rfl
    · rename_i hst
      right
      unfold loopStep
      split_ifs with h1 h2 h3
      · have hexch := wsum_set_of_read (wMeasure c.opts.retry) .done hst
        simp only [stMeasure]
        dsimp only
        omega
      · have hcb : s.cursor < c.n + c.workerCount := by
          have hc1 := hI.curBound
          have hc2 := doneCount_bound s hst rfl
          have hc3 := hI.wlen
          omega
        have hm1 : min s.cursor (c.n + c.workerCount) = s.cursor :=
          Nat.min_eq_left (by omega)
        have hm2 : min (s.cursor + 1) (c.n + c.workerCount) = s.cursor + 1 :=
          Nat.min_eq_left (by omega)
        have hA : (2 * c.opts.retry + 4) *
            (c.n + c.workerCount - (s.cursor + 1)) + (2 * c.opts.retry + 4) =
            (2 * c.opts.retry + 4) * (c.n + c.workerCount - s.cursor) := by
          have h9 : c.n + c.workerCount - s.cursor =
              (c.n + c.workerCount - (s.cursor + 1)) + 1 := by omega
          rw [h9, Nat.mul_add, Nat.mul_one]
        have hexch := wsum_set_of_read (wMeasure c.opts.retry) .done hst
        simp only [stMeasure]
        dsimp only
        rw [hm1, hm2]
        omega
      · have hcb : s.cursor < c.n + c.workerCount := by
          have hc1 : s.cursor < c.n := by omega
          omega
        have hm1 : min s.cursor (c.n + c.workerCount) = s.cursor :=
          Nat.min_eq_left (by omega)
        have hm2 : min (s.cursor + 1) (c.n + c.workerCount) = s.cursor + 1 :=
          Nat.min_eq_left (by omega)
        have hA : (2 * c.opts.retry + 4) *
            (c.n + c.workerCount - (s.cursor + 1)) + (2 * c.opts.retry + 4) =
            (2 * c.opts.retry + 4) * (c.n + c.workerCount - s.cursor) := by
          have h9 : c.n + c.workerCount - s.cursor =
              (c.n + c.workerCount - (s.cursor + 1)) + 1 := by omega
          rw [h9, Nat.mul_add, Nat.mul_one]
        have hexch := wsum_set_of_read (wMeasure c.opts.retry) .done hst
        simp only [stMeasure]
        dsimp only
        rw [hm1, hm2]
        omega
      · have hcb : s.cursor < c.n + c.workerCount := by
          have hc1 : s.cursor < c.n := by omega
          omega
        have hm1 : min s.cursor (c.n + c.workerCount) = s.cursor :=
          Nat.min_eq_left (by omega)
        have hm2 : min (s.cursor + 1) (c.n + c.workerCount) = s.cursor + 1 :=
          Nat.min_eq_left (by omega)
        have hA : (2 * c.opts.retry + 4) *
            (c.n + c.workerCount - (s.cursor + 1)) + (2 * c.opts.retry + 4) =
            (2 * c.opts.retry + 4) * (c.n + c.workerCount - s.cursor) := by
          have h9 : c.n + c.workerCount - s.cursor =
              (c.n + c.workerCount - (s.cursor + 1)) + 1 := by omega
          rw [h9, Nat.mul_add, Nat.mul_one]
        have hexch := wsum_set_of_read (wMeasure c.opts.retry)
          (.running s.cursor 0) hst
        have hvr : wMeasure c.opts.retry (.running s.cursor 0) =
            2 * (c.opts.retry - 0) + 3 := rfl
        simp only [stMeasure]
        dsimp only
        rw [hm1, hm2]
        omega
    · rename_i i k hst
      have hWOK := hI.active w _ hst
      have hk : k ≤ c.opts.retry := by
        simp only [WOK] at hWOK
        exact hWOK.2.1
      have hvk : wMeasure c.opts.retry (.running i k) =
          2 * (c.opts.retry - k) + 3 := rfl
      unfold resolveStep
      split
      · exact .inl rfl
      · rename_i key b hep
        split
        · rename_i v hbk
          right
          have hexch := wsum_set_of_read (wMeasure c.opts.retry) .atLoop hst
          simp only [stMeasure]
          dsimp only
          omega
        · rename_i e2 hbk
          right
          split_ifs with hkr hset hd hstop
          · subst hkr
            have hexch := wsum_set_of_read (wMeasure c.opts.retry) .atLoop hst
            simp only [stMeasure]
            dsimp only
            omega
          · subst hkr
            have hexch := wsum_set_of_read (wMeasure c.opts.retry) .atLoop hst
            simp only [stMeasure]
            dsimp only
            omega
          · have hexch := wsum_set_of_read (wMeasure c.opts.retry)
              (.delaying i (k + 1)) hst
            have hvd : wMeasure c.opts.retry (.delaying i (k + 1)) =
                2 * (c.opts.retry - (k + 1)) + 4 := rfl
            have hklt : k < c.opts.retry := by
              rcases Nat.lt_or_ge k c.opts.retry with h | h
              · exact h
              · exact absurd (by omega) hkr
            simp only [stMeasure]
            dsimp only
            omega
          · have hexch := wsum_set_of_read (wMeasure c.opts.retry) .atLoop hst
            simp only [stMeasure]
            dsimp only
            omega
          · have hexch := wsum_set_of_read (wMeasure c.opts.retry)
              (.running i (k + 1)) hst
            have hvr2 : wMeasure c.opts.retry (.running i (k + 1)) =
                2 * (c.opts.retry - (k + 1)) + 3 := rfl
            have hklt : k < c.opts.retry := by
              rcases Nat.lt_or_ge k c.opts.retry with h | h
              · exact h
              · exact absurd (by omega) hkr
            simp only [stMeasure]
            dsimp only
            omega
    · rename_i i k hst
      right
      have hvk : wMeasure c.opts.retry (.delaying i k) =
          2 * (c.opts.retry - k) + 4 := rfl
      unfold delayResume
      split_ifs with h1
      · have hexch := wsum_set_of_read (wMeasure c.opts.retry)
          (.running i k) hst
        have hvr : wMeasure c.opts.retry (.running i k) =
            2 * (c.opts.retry - k) + 3 := rfl
        simp only [stMeasure]
        dsimp only
        omega
      · have hexch := wsum_set_of_read (wMeasure c.opts.retry) .atLoop hst
        simp only [stMeasure]
        dsimp only
        omega

/-- C9 statement: the ghost invocation log of any run stays within
`(retry + 1) * n`, and from any reachable state every scheduler event
either stutters or strictly decreases the termination measure. -/
def C9Prop {κ V : Type} (c : Ctx κ V) (sched : List Ev) : Prop :=
  (execP c sched).invLog.length ≤ (c.opts.retry + 1) * c.n ∧
  ∀ e, stepP c (execP c sched) e = execP c sched ∨
    stMeasure c (stepP c (execP c sched) e) < stMeasure c (execP c sched)

/-- C9: every run makes only finitely many thunk invocations — at most
`(retry + 1)` per entry, `(retry + 1) * n` in total — and every reachable
state only stutters or strictly decreases a natural-valued measure, so
the shared-cursor worker loops and the per-task retry loops all
terminate. -/
theorem c9_finite_work {κ V : Type} (c : Ctx κ V)
    (hkeys : (c.entries.map Prod.fst).Nodup) (sched : List Ev) :
    C9Prop c sched := by
  have hI := minv_execP c hkeys sched
  constructor
  · have h1 := hI.logBound
    have h2 : (c.opts.retry + 1) * min (execP c sched).cursor c.n ≤
        (c.opts.retry + 1) * c.n :=
      Nat.mul_le_mul_left _ (Nat.min_le_right _ _)
    omega
  · intro e
    exact measure_step c (execP c sched) e hI

/-- Single task for the C9 witness. -/
def c9wTasks : List (Nat → TaskOutcome Nat) := [fun _ => .ok 7]

/-- The C9 theorem instantiated on a concrete one-task context. -/
theorem c9_finite_work_witness :
    ((⟨c9wTasks.enum, {}⟩ : Ctx Nat Nat).entries.map Prod.fst).Nodup ∧
    C9Prop (⟨c9wTasks.enum, {}⟩ : Ctx Nat Nat) [.work 0, .work 0, .work 0] :=
  ⟨by decide, c9_finite_work (⟨c9wTasks.enum, {}⟩ : Ctx Nat Nat) (by decide)
    [.work 0, .work 0, .work 0]⟩

/-- View a `promise.ts` context as a `concurrency.ts` one whose tasks are
all zero-argument thunks. -/
def liftCtx {κ V : Type} (c : Ctx κ V) : CtxC κ V :=
  ⟨c.entries.map (fun p => (p.1, TaskC.thunk p.2)), c.opts⟩

/-- Entry lookup through the lift. -/
theorem entries_lift {κ V : Type} (c : Ctx κ V) (i : Nat) :
    (liftCtx c).entries[i]? =
      (c.entries[i]?).map (fun p => (p.1, TaskC.thunk p.2)) := by
  simp [liftCtx]

/-- The lift keeps the entry count. -/
theorem n_lift {κ V : Type} (c : Ctx κ V) : (liftCtx c).n = c.n := by
  simp [liftCtx, CtxC.n, Ctx.n]

/-- The lift keeps the worker count. -/
theorem workerCount_lift {κ V : Type} (c : Ctx κ V) :
    (liftCtx c).workerCount = c.workerCount := by
  rcases h : c.opts.concurrency with _ | lim <;>
    simp [CtxC.workerCount, Ctx.workerCount, liftCtx, CtxC.n, Ctx.n, h]

/-- The two worker loop bodies agree on thunk-only inputs. -/
theorem loop_agree {κ V : Type} (c : Ctx κ V) (s : St κ V) (w : Nat) :
    loopStepC (liftCtx c) s w = loopStep c s w := by
  unfold loopStepC loopStep
  rw [n_lift]

/-- The two `runTask` settling blocks agree on thunk-only inputs. -/
theorem resolve_agree {κ V : Type} (c : Ctx κ V) (s : St κ V) (w i k : Nat) :
    resolveStepC (liftCtx c) s w i k = resolveStep c s w i k := by
  unfold resolveStepC resolveStep
  rw [entries_lift]
  rcases he : c.entries[i]? with _ | p
  · rfl
  · obtain ⟨key, b⟩ := p
    rfl

/-- The two machines take identical steps on thunk-only inputs. -/
theorem step_agree {κ V : Type} (c : Ctx κ V) (s : St κ V) (e : Ev) :
    stepC (liftCtx c) s e = stepP c s e := by
  cases e with
  | abortFire => rfl
  | timerFire => rfl
  | work w =>
    simp only [stepC, stepP]
    rcases hw : s.workers[w]? with _ | st
    · rfl
    · cases st with
      | done => rfl
      | atLoop => exact loop_agree c s w
      | running i k => exact resolve_agree c s w i k
      | delaying i k => rfl

/-- The two machines start identically on thunk-only inputs. -/
theorem initSt_agree {κ V : Type} (c : Ctx κ V) :
    initStC (liftCtx c) = initSt c := by
  unfold initStC initSt
  rw [workerCount_lift]

/-- Fold agreement of the two machines. -/
theorem foldl_agree {κ V : Type} (c : Ctx κ V) :
    ∀ (evs : List Ev) (s : St κ V),
      evs.foldl (stepC (liftCtx c)) s = evs.foldl (stepP c) s := by
  intro evs
  induction evs with
  | nil => intro s; rfl
  | cons e t ih =>
    intro s
    simp only [List.foldl_cons]
    rw [step_agree]
    exact ih _

/-- Whole-run agreement of the two machines on thunk-only inputs. -/
theorem exec_agree {κ V : Type} (c : Ctx κ V) (sched : List Ev) :
    execC (liftCtx c) sched = execP c sched := by
  unfold execC execP execFrom
  rw [initSt_agree, foldl_agree]

/-- C10: on inputs whose tasks are all zero-argument thunks, the
`concurrency.ts` runner and the `promise.ts` runner settle identically —
same result object, errors, counts, and rejections — on both input
shapes, for every option record and every schedule. -/
theorem c10_runner_equivalence {V : Type} :
    (∀ (tasks : List (Nat → TaskOutcome V)) (opts : Options) (sched : List Ev),
      runListC (tasks.map TaskC.thunk) opts sched = runListP tasks opts sched) ∧
    (∀ (tasks : List (String × (Nat → TaskOutcome V))) (opts : Options)
       (sched : List Ev),
      runObjC (tasks.map (fun p => (p.1, TaskC.thunk p.2))) opts sched =
        runObjP tasks opts sched) := by
  constructor
  · intro tasks opts sched
    unfold runListC runListP
    dsimp only
    have hlen : (tasks.map TaskC.thunk).length = tasks.length := by simp
    rw [hlen]
    have hctx : (⟨(tasks.map TaskC.thunk).enum, opts⟩ : CtxC Nat V) =
        liftCtx (⟨tasks.enum, opts⟩ : Ctx Nat V) := by
      have hent : (tasks.map TaskC.thunk).enum =
          tasks.enum.map (fun p => (p.1, TaskC.thunk p.2)) := by
        rw [List.enum_map]
        exact List.map_congr_left (fun p _ => by cases p; rfl)
      rw [liftCtx, hent]
    rw [hctx, exec_agree]
  · intro tasks opts sched
    unfold runObjC runObjP
    dsimp only
    have hlen : (tasks.map (fun p => (p.1, TaskC.thunk p.2))).length =
        tasks.length := by simp
    rw [hlen]
    have hctx : (⟨tasks.map (fun p => (p.1, TaskC.thunk p.2)), opts⟩ :
        CtxC String V) = liftCtx (⟨tasks, opts⟩ : Ctx String V) := rfl
    rw [hctx, exec_agree]

/-- Single resolving task for the C1 witness. -/
def c1wTasks : List (Nat → TaskOutcome Nat) := [fun _ => .ok 5]

/-- Schedule for the C1 witness: claim, resolve, exit. -/
def c1wSched : List Ev := [.work 0, .work 0, .work 0]

/-- The amended C1 theorem instantiated on a concrete completed run. -/
theorem c1_conservation_amended_witness :
    validConc ({} : Options) ∧
    runListP c1wTasks {} c1wSched = .ok ⟨[5], [], 1, 0⟩ ∧
    finishedSt (execP (⟨c1wTasks.enum, {}⟩ : Ctx Nat Nat) c1wSched) = true ∧
    (execP (⟨c1wTasks.enum, {}⟩ : Ctx Nat Nat) c1wSched).aborted = false ∧
    (⟨[5], [], 1, 0⟩ : RunResult (List Nat)).succeeded +
      (⟨[5], [], 1, 0⟩ : RunResult (List Nat)).failed = c1wTasks.length :=
  ⟨by decide, by decide, by decide, by decide,
    c1_conservation_amended.1 c1wTasks {} c1wSched ⟨[5], [], 1, 0⟩
      (by decide) (by decide) (by decide) (by decide)⟩

/-- Single always-failing task for the C3 witness. -/
def c3wTasks : List (Nat → TaskOutcome Nat) := [fun _ => .err (.errObj "e1")]

/-- Fail-fast options for the C3 witness. -/
def c3wOpts : Options := { throwOnFirstError := true }

/-- Schedule for the C3 witness: claim, final failure with capture. -/
def c3wSched : List Ev := [.work 0, .work 0]

/-- The C3 theorem instantiated on a concrete fail-fast run. -/
theorem c3_failfast_iff_witness :
    ((⟨c3wTasks.enum, c3wOpts⟩ : Ctx Nat Nat).entries.map Prod.fst).Nodup ∧
    (execP (⟨c3wTasks.enum, c3wOpts⟩ : Ctx Nat Nat) c3wSched).timedOut
      = false ∧
    C3Prop assembleList (⟨c3wTasks.enum, c3wOpts⟩ : Ctx Nat Nat) c3wSched :=
  ⟨by decide, by decide,
    c3_failfast_iff assembleList (⟨c3wTasks.enum, c3wOpts⟩ : Ctx Nat Nat)
      (by decide) c3wSched (by decide)⟩

/-- Single task for the C4 witness (never scheduled to settle). -/
def c4wTasks : List (Nat → TaskOutcome Nat) := [fun _ => .ok 1]

/-- Finite-timeout options for the C4 witness. -/
def c4wOpts : Options := { timeout := some 1000 }

/-- The C4 theorem instantiated with the race lost immediately. -/
theorem c4_timeout_rejects_witness :
    (⟨c4wTasks.enum, c4wOpts⟩ : Ctx Nat Nat).opts.timeout = some 1000 ∧
    finishedSt (execP (⟨c4wTasks.enum, c4wOpts⟩ : Ctx Nat Nat) []) = false ∧
    (execP (⟨c4wTasks.enum, c4wOpts⟩ : Ctx Nat Nat) []).timedOut = false ∧
    C4Prop (⟨c4wTasks.enum, c4wOpts⟩ : Ctx Nat Nat) 1000 [] [] :=
  ⟨by decide, by decide, by decide,
    c4_timeout_rejects (⟨c4wTasks.enum, c4wOpts⟩ : Ctx Nat Nat) 1000 [] []
      (by decide) (by decide) (by decide)⟩

/-- Single always-failing task for the C6 witness. -/
def c6wTasks : List (Nat → TaskOutcome Nat) := [fun _ => .err (.errObj "e6")]

/-- Two-retry options for the C6 witness. -/
def c6wOpts : Options := { retry := 2 }

/-- Schedule invoking the failing task three times, then exiting. -/
def c6wSched : List Ev := [.work 0, .work 0, .work 0, .work 0, .work 0]

/-- The C6 theorem instantiated on a concrete exhausted-retries run. -/
theorem c6_retry_bound_witness :
    ((⟨c6wTasks.enum, c6wOpts⟩ : Ctx Nat Nat).entries.map Prod.fst).Nodup ∧
    C6Prop (⟨c6wTasks.enum, c6wOpts⟩ : Ctx Nat Nat) c6wSched :=
  ⟨by decide,
    c6_retry_bound (⟨c6wTasks.enum, c6wOpts⟩ : Ctx Nat Nat) (by decide)
      c6wSched⟩

/-- Single resolving task for the C7 witness. -/
def c7wTasks : List (Nat → TaskOutcome Nat) := [fun _ => .ok 1]

/-- Schedule for the C7 witness. -/
def c7wSched : List Ev := [.work 0, .work 0, .work 0]

/-- The C7 theorem instantiated on a concrete run. -/
theorem c7_claim_order_witness :
    ((⟨c7wTasks.enum, {}⟩ : Ctx Nat Nat).entries.map Prod.fst).Nodup ∧
    C7Prop (⟨c7wTasks.enum, {}⟩ : Ctx Nat Nat) c7wSched :=
  ⟨by decide,
    c7_claim_order (⟨c7wTasks.enum, {}⟩ : Ctx Nat Nat) (by decide) c7wSched⟩
